import Mathlib

/-!
Shallow embedding of `src/server/async.py` (flsim): the federated-learning
server's aggregation core (`federated_averaging`, `federated_async`,
`staleness`), the data model (`Group`, `Record`, reports), and the round
drivers (`sync_round`, `async_round`, the round loop of `AsyncServer.run`).

Modelling conventions:
* torch weight tensors are used by the source only through `+`, `-`,
  scalar `*` and `torch.zeros(x.size())`, so a tensor is modelled as an
  element of an abstract module `T` over the scalar field;
* simulated times, delays and sample-count ratios are exact scalars
  (`ℚ` for the event loop, which must be executable; `ℝ` where the real
  power in the `polynomial` staleness function forces real arithmetic);
* Python exceptions (`AssertionError` from `assert name == bl_name`,
  `IndexError` from out-of-range subscripts, `ZeroDivisionError` from
  `num_samples / total_samples` with a zero total, and the `TypeError`
  raised by `alpha * None` when `staleness` falls through all branches)
  are modelled as `Option.none`;
* `queue.PriorityQueue` is modelled at two levels: by its min-queue
  contract inside the event loop, and, for the tie-breaking question, by
  the actual `heapq` sift-down comparison chain on Python tuples.
-/

namespace flsim

/-- Ordered list of named weight tensors, as produced by
`fl_model.extract_weights(model)` and stored in `report.weights`. -/
abbrev Weights (T : Type) := List (String × T)

/-- Result of one client's local round (`client.get_report()`):
identifier, named weights, sample count, local accuracy
(`src/server/async.py` uses `report.weights`, `report.num_samples`,
`report.accuracy`, `report.client_id`). -/
structure Report (T : Type) where
  client_id : ℕ
  weights : Weights T
  num_samples : ℕ
  accuracy : ℚ
  deriving DecidableEq

/-- AsyncServer.staleness (src/server/async.py lines 523-534).
`constant` returns `1`; `polynomial` returns `pow(staleness + 1, -a)` with
`a = 0.5`, a real power; `hinge` returns `1` for `s ≤ 4` and
`1 / (10 * (s - 4) + 1)` otherwise.  An unrecognized name falls through
every branch and Python implicitly returns `None`; the sole caller then
evaluates `alpha * None`, a `TypeError`.  Both outcomes are `none` here. -/
noncomputable def staleness (staleness_func : String) (s : ℝ) : Option ℝ :=
  if staleness_func = "constant" then some 1
  else if staleness_func = "polynomial" then some ((s + 1) ^ (-(1/2) : ℝ))
  else if staleness_func = "hinge" then
    some (if s ≤ 4 then 1 else 1 / (10 * (s - 4) + 1))
  else none

/-- Inner loop of `AsyncServer.extract_client_updates` (lines 432-443) for
one report: walk the report's named tensors with the running index into
`baseline_weights`.  A report longer than the baseline hits
`baseline_weights[i]` out of range (`IndexError`, `none`); a name mismatch
fails `assert name == bl_name` (`none`); otherwise the delta
`weight - baseline` is recorded under the report's name. -/
def updateOne {T : Type} [AddCommGroup T] : Weights T → Weights T → Option (Weights T)
  | [], _ => some []
  | _ :: _, [] => none
  | (n, w) :: ws, (bn, bw) :: bs =>
    if n = bn then (updateOne ws bs).map (fun r => (n, w - bw) :: r) else none

/-- Option-valued map, used to model a Python loop that can raise while
building a list. -/
def mapOption {α β : Type} (f : α → Option β) : List α → Option (List β)
  | [] => some []
  | x :: xs => (f x).bind fun y => (mapOption f xs).map fun ys => y :: ys

/-- AsyncServer.extract_client_updates (lines 421-445): per-report deltas
against the baseline weights of the current global model. -/
def extract_client_updates {T : Type} [AddCommGroup T]
    (baseline : Weights T) (reports : List (Report T)) : Option (List (Weights T)) :=
  mapOption (fun r => updateOne r.weights baseline) reports

/-- AsyncServer.extract_client_weights (lines 447-453): the raw reported
weights, no baseline subtraction and no name check. -/
def extract_client_weights {T : Type} (reports : List (Report T)) : List (Weights T) :=
  reports.map fun r => r.weights

/-- Total number of samples over a batch of reports
(`sum([report.num_samples for report in reports])`). -/
def totalSamples {T : Type} (reports : List (Report T)) : ℕ :=
  (reports.map fun r => r.num_samples).sum

/-- One pass of `avg_update[j] += delta * (num_samples / total_samples)`
(lines 473-475, and the identical loop at lines 501-503) for a single
report over the accumulator list.  The division sits inside the loop body,
so `ZeroDivisionError` (`none`) is raised only when at least one element is
processed; a report longer than the accumulator hits `avg_update[j]` out of
range (`IndexError`, `none`); trailing accumulator entries are untouched. -/
def avgAdd (K : Type) [Field K] {T : Type} [AddCommGroup T] [Module K T]
    (n total : ℕ) : List T → Weights T → Option (List T)
  | acc, [] => some acc
  | [], _ :: _ => none
  | a :: as, (_, d) :: ds =>
    if total = 0 then none
    else (avgAdd K n total as ds).map fun r => (a + ((n : K) / (total : K)) • d) :: r

/-- The outer `for i, update in enumerate(updates)` loop (lines 471-475 and
499-503): fold `avgAdd` over the (update, num_samples) pairs. -/
def foldUpdates (K : Type) [Field K] {T : Type} [AddCommGroup T] [Module K T]
    (total : ℕ) : List T → List (Weights T × ℕ) → Option (List T)
  | acc, [] => some acc
  | acc, (u, n) :: rest =>
    (avgAdd K n total acc u).bind fun acc2 => foldUpdates K total acc2 rest

/-- Final loop of `federated_averaging` (lines 481-483):
`(name, weight + avg_update[i])` over `enumerate(baseline_weights)`.
A baseline longer than the accumulator hits `avg_update[i]` out of range
(`IndexError`, `none`); extra accumulator entries are silently ignored. -/
def addAligned {T : Type} [AddCommGroup T] : Weights T → List T → Option (Weights T)
  | [], _ => some []
  | _ :: _, [] => none
  | (nm, w) :: ws, a :: as =>
    (addAligned ws as).map fun r => (nm, w + a) :: r

/-- AsyncServer.federated_averaging (lines 459-485).  Extract deltas (name
check included), then the sample-weighted average starting from
`[torch.zeros(x.size()) for _, x in updates[0]]` (an `IndexError` for an
empty batch), then add the average onto the baseline. -/
def federated_averaging (K : Type) [Field K] {T : Type} [AddCommGroup T] [Module K T]
    (baseline : Weights T) (reports : List (Report T)) : Option (Weights T) :=
  (extract_client_updates baseline reports).bind fun updates =>
    let total := totalSamples reports
    match updates with
    | [] => none
    | u0 :: rest =>
      (foldUpdates K total (u0.map fun _ => (0 : T))
          ((u0 :: rest).zip (reports.map fun r => r.num_samples))).bind
        fun avg => addAligned baseline avg

/-- Final loop of `federated_async` (lines 515-519):
`(name, (1 - alpha_t) * weight + alpha_t * new_weights[i])` over
`enumerate(baseline_weights)`; `IndexError` (`none`) when the baseline is
longer than the averaged list. -/
def blendAligned (alpha_t : ℝ) {T : Type} [AddCommGroup T] [Module ℝ T] :
    Weights T → List T → Option (Weights T)
  | [], _ => some []
  | _ :: _, [] => none
  | (nm, w) :: ws, v :: vs =>
    (blendAligned alpha_t ws vs).map fun r => (nm, (1 - alpha_t) • w + alpha_t • v) :: r

/-- AsyncServer.federated_async (lines 487-521).  Raw reported weights (no
name check), sample-weighted mean starting from zeros shaped like
`weights[0]` (an `IndexError` for an empty batch), then
`alpha_t = alpha * self.staleness(staleness)` and the convex blend with the
baseline extracted from the current global model. -/
noncomputable def federated_async {T : Type} [AddCommGroup T] [Module ℝ T]
    (alpha : ℝ) (staleness_func : String) (baseline : Weights T)
    (reports : List (Report T)) (s : ℝ) : Option (Weights T) :=
  let weights := extract_client_weights reports
  let total := totalSamples reports
  match weights with
  | [] => none
  | w0 :: rest =>
    (foldUpdates ℝ total (w0.map fun _ => (0 : T))
        ((w0 :: rest).zip (reports.map fun r => r.num_samples))).bind
      fun newW => (staleness staleness_func s).bind
        fun f => blendAligned (alpha * f) baseline newW

/-- AsyncServer.aggregation (lines 412-418): dispatch on the configured
synchrony mode; any other mode raises `NotImplementedError` (`none`). -/
noncomputable def aggregation {T : Type} [AddCommGroup T] [Module ℝ T]
    (sync_type staleness_func : String) (alpha : ℝ) (model : Weights T)
    (reports : List (Report T)) (stal : ℝ) : Option (Weights T) :=
  if sync_type = "sync" then federated_averaging ℝ model reports
  else if sync_type = "async" then
    federated_async alpha staleness_func model reports stal
  else none

/-- Modelled from the spec (§4.4, sample-weighted averaging), as the
refinement target for `federated_averaging`: for each named tensor,
`baseline + Σ_i (weight_i − baseline) · (num_samples_i / Σ_j num_samples_j)`. -/
def specFedAvg (K : Type) [Field K] {T : Type} [AddCommGroup T] [Module K T]
    (baseline : Weights T) (reports : List (Report T)) : Weights T :=
  (List.range baseline.length).map fun j =>
    let b := baseline.getD j ("", 0)
    (b.1, b.2 + (reports.map fun r =>
      ((r.num_samples : K) / (totalSamples reports : K)) •
        ((r.weights.getD j ("", 0)).2 - b.2)).sum)

/-- Modelled from the spec (§4.4, staleness-discounted blending), as the
refinement target for `federated_async`: per tensor position,
`(1 − alpha_t) · baseline + alpha_t · new_weight` with `alpha_t = alpha · f`
and `new_weight` the sample-weighted mean of the raw reported weights. -/
noncomputable def specFedAsync {T : Type} [AddCommGroup T] [Module ℝ T]
    (alpha f : ℝ) (baseline : Weights T) (reports : List (Report T)) : Weights T :=
  (List.range baseline.length).map fun j =>
    let b := baseline.getD j ("", 0)
    let nw := (reports.map fun r =>
      ((r.num_samples : ℝ) / (totalSamples reports : ℝ)) •
        (r.weights.getD j ("", 0)).2).sum
    (b.1, (1 - alpha * f) • b.2 + (alpha * f) • nw)

/-!
Event-loop embedding.  Simulated times and delays are rationals (Python
floats used only through `+`, `-`, `max`, `<=`); the global model and the
reports are abstract types `M` and `ρ`, with the aggregation step and the
accuracy evaluation passed in as oracles, so that the scheduling logic of
`async_round` / `sync_round` / `run` is isolated exactly as it appears in
the source.
-/

/-- Modelled from the spec: the simulated client (`client.py` is not under
`src/`; §3 and §6 give its interface).  `delay` is the current simulated
delay, `sampler` the external random source that `set_delay` draws from
(indexed by how many draws happened so far), and `reports` the external
stream of training results, one per invocation of `run`. -/
structure Client (ρ : Type) where
  client_id : ℕ
  delay : ℚ
  sampler : ℕ → ℚ
  tick : ℕ
  reports : ℕ → ρ

/-- Modelled from the spec: `client.set_delay()` resamples the client's
simulated delay (§3: "resampled per round"; §6). -/
def set_delay {ρ : Type} (c : Client ρ) : Client ρ :=
  { c with delay := c.sampler c.tick, tick := c.tick + 1 }

/-- Modelled from the spec: `client.run(reg=True)` executes one local
training pass and produces exactly one report (§6); per §4.3h and §3 the
per-client delay is freshly sampled for each train cycle, so the run
draws a new delay from the sampler. -/
def client_run {ρ : Type} (c : Client ρ) : Client ρ × ρ :=
  (set_delay c, c.reports c.tick)

/-- Group (src/server/async.py lines 15-26): a scheduling unit owning its
clients, the time its input model was downloaded, and the time its output
becomes available. -/
structure Group (ρ : Type) where
  clients : List (Client ρ)
  download_time : ℚ
  aggregate_time : ℚ

/-- Group.set_download_time (lines 20-21). -/
def set_download_time {ρ : Type} (g : Group ρ) (d : ℚ) : Group ρ :=
  { g with download_time := d }

/-- Maximum of a list of rationals; Python's `max` raises on an empty list,
and every group produced by `selection` is a non-empty singleton, so the
empty case (defaulted to 0) is never reached on source-reachable inputs. -/
def maxQ : List ℚ → ℚ
  | [] => 0
  | x :: xs => xs.foldl max x

/-- Group.set_aggregate_time (lines 23-26):
`aggregate_time = download_time + max([c.delay for c in clients])`. -/
def set_aggregate_time {ρ : Type} (g : Group ρ) : Group ρ :=
  { g with aggregate_time := g.download_time + maxQ (g.clients.map Client.delay) }

/-- Record (lines 28-42): parallel append-only time/accuracy traces. -/
structure Record where
  t : List ℚ
  acc : List ℚ

/-- Record.append_acc_record (lines 34-36). -/
def append_acc_record (r : Record) (tv av : ℚ) : Record :=
  ⟨r.t ++ [tv], r.acc ++ [av]⟩

/-- Record.get_latest_t (lines 38-39): `self.t[-1]`; Python raises on an
empty trace, defaulted to 0 here (reached only if a round ran with no
groups and nothing was ever recorded). -/
def get_latest_t (r : Record) : ℚ := r.t.getLastD 0

/-- Record.get_latest_acc (lines 41-42), same convention. -/
def get_latest_acc (r : Record) : ℚ := r.acc.getLastD 0

/-- State of the async event loop (lines 291-346): the pending-group queue
(entries are the pushed `(group.aggregate_time, group)` pairs), the global
model, the records, and the trace of staleness values passed to
`self.aggregation` at line 316 (kept so the arguments of the aggregation
calls can be spoken about). -/
structure AsyncSt (M ρ : Type) where
  queue : List (ℚ × Group ρ)
  model : M
  records : Record
  stals : List ℚ

/-- `queue.PriorityQueue.get` by its contract: remove a minimal-key entry
(leftmost among equals).  The tie-breaking internals of `heapq` are
modelled separately by `heappush` below. -/
def popMin {ρ : Type} :
    List (ℚ × Group ρ) → Option ((ℚ × Group ρ) × List (ℚ × Group ρ))
  | [] => none
  | e :: es =>
    match popMin es with
    | none => some (e, [])
    | some (m, rest) => if e.1 ≤ m.1 then some (e, es) else some (m, e :: rest)

/-- Per-round group setup shared by sync_round and async_round (lines
225-232 and 282-289): every selected client draws a fresh delay, then the
group's `download_time` is set to `T_old` and `aggregate_time` derived. -/
def initGroup {ρ : Type} (T_old : ℚ) (g : Group ρ) : Group ρ :=
  set_aggregate_time
    (set_download_time { g with clients := g.clients.map set_delay } T_old)

/-- One iteration of the async event loop body (lines 297-345): pop the
minimal-time group, run its clients, advance current time to the group's
`aggregate_time`, aggregate with `staleness = aggregate_time −
download_time` on the current model, append to the records, and re-enqueue
the group with `download_time := T_cur` and a recomputed `aggregate_time`
exactly when `T_cur − T_old ≤ T_async`. -/
def async_step {M ρ : Type} (agg : M → List ρ → ℚ → M) (accOf : M → List ρ → ℚ)
    (T_old T_async : ℚ) (st : AsyncSt M ρ) : AsyncSt M ρ :=
  match popMin st.queue with
  | none => st
  | some ((_, g), rest) =>
    let ran := g.clients.map client_run
    let clients2 := ran.map Prod.fst
    let reps := ran.map Prod.snd
    let T_cur := g.aggregate_time
    let stal := g.aggregate_time - g.download_time
    let model2 := agg st.model reps stal
    let a := accOf model2 reps
    let rec2 := append_acc_record st.records T_cur a
    if T_cur - T_old ≤ T_async then
      let g2 := set_aggregate_time (set_download_time { g with clients := clients2 } T_cur)
      ⟨rest ++ [(g2.aggregate_time, g2)], model2, rec2, st.stals ++ [stal]⟩
    else
      ⟨rest, model2, rec2, st.stals ++ [stal]⟩

/-- The `while not queue.empty()` loop (line 297), fuelled: the number of
iterations is data-dependent (each cycle may re-enqueue), so the loop is
run for at most `fuel` iterations; every claim proved about it is an
invariant of the executed prefix. -/
def async_loop {M ρ : Type} (agg : M → List ρ → ℚ → M) (accOf : M → List ρ → ℚ)
    (T_old T_async : ℚ) : ℕ → AsyncSt M ρ → AsyncSt M ρ
  | 0, st => st
  | fuel + 1, st =>
    if st.queue.isEmpty then st
    else async_loop agg accOf T_old T_async fuel (async_step agg accOf T_old T_async st)

/-- Result of one round as `run` consumes it: `(accuracy, T_new)` plus the
threaded model and records. -/
structure RoundOut (M : Type) where
  accuracy : ℚ
  T_new : ℚ
  model : M
  records : Record

/-- AsyncServer.sync_round (lines 221-273): fresh delays, `max_delay` over
all sampled clients, all clients run, `T_cur = T_old + max_delay`,
aggregate on the current model, evaluate, append `(T_cur, accuracy)`. -/
def sync_round {M ρ : Type} (aggS : M → List ρ → M) (accOf : M → List ρ → ℚ)
    (groups : List (Group ρ)) (T_old : ℚ) (model : M) (records : Record) :
    RoundOut M :=
  let groups2 := groups.map (initGroup T_old)
  let cs := (groups2.map Group.clients).flatten
  let max_delay := maxQ (cs.map Client.delay)
  let ran := cs.map client_run
  let reps := ran.map Prod.snd
  let T_cur := T_old + max_delay
  let model2 := aggS model reps
  let a := accOf model2 reps
  ⟨a, T_cur, model2, append_acc_record records T_cur a⟩

/-- AsyncServer.async_round (lines 275-347): set up the selected groups,
enqueue them keyed by `aggregate_time`, drive the event loop, and return
the latest accuracy/time pair of the records. -/
def async_round {M ρ : Type} (aggA : M → List ρ → ℚ → M) (accOf : M → List ρ → ℚ)
    (groups : List (Group ρ)) (T_old T_async : ℚ) (fuel : ℕ) (model : M)
    (records : Record) : RoundOut M :=
  let groups2 := groups.map (initGroup T_old)
  let st0 : AsyncSt M ρ := ⟨groups2.map fun g => (g.aggregate_time, g), model, records, []⟩
  let stF := async_loop aggA accOf T_old T_async fuel st0
  ⟨get_latest_acc stF.records, get_latest_t stF.records, stF.model, stF.records⟩

/-- The `if target_accuracy and (accuracy >= target_accuracy)` early-exit
test of AsyncServer.run (line 212). -/
def targetHit (target : Option ℚ) (a : ℚ) : Bool :=
  match target with
  | none => false
  | some ta => decide (ta ≤ a)

/-- Round loop of AsyncServer.run (lines 190-214): starting from
`T_old = 0.0`, dispatch each round on the synchrony mode (`sync` /
`async`; anything else raises `NotImplementedError`, modelled `none`),
advance `T_old` to the returned `T_new`, and stop early once the target
accuracy is met.  Selection is the per-round oracle `groupsOf`; model
persistence and `rm_old_models` are I/O and are omitted. -/
def runRounds {M ρ : Type} (sync_type : String) (groupsOf : ℕ → List (Group ρ))
    (aggS : M → List ρ → M) (aggA : M → List ρ → ℚ → M) (accOf : M → List ρ → ℚ)
    (T_async : ℚ) (fuel : ℕ) (target_accuracy : Option ℚ) :
    ℕ → ℕ → ℚ → M → Record → Option (M × Record × ℚ)
  | _, 0, T_old, model, records => some (model, records, T_old)
  | round, n + 1, T_old, model, records =>
    if sync_type = "sync" then
      let out := sync_round aggS accOf (groupsOf round) T_old model records
      if targetHit target_accuracy out.accuracy then some (out.model, out.records, out.T_new)
      else
        runRounds sync_type groupsOf aggS aggA accOf T_async fuel target_accuracy
          (round + 1) n out.T_new out.model out.records
    else if sync_type = "async" then
      let out := async_round aggA accOf (groupsOf round) T_old T_async fuel model records
      if targetHit target_accuracy out.accuracy then some (out.model, out.records, out.T_new)
      else
        runRounds sync_type groupsOf aggS aggA accOf T_async fuel target_accuracy
          (round + 1) n out.T_new out.model out.records
    else none

/-!
The `heapq` comparison chain behind `queue.PriorityQueue.put`, modelled to
settle how ties on `aggregate_time` behave.  An entry is the tuple
`(group.aggregate_time, group)` pushed at line 294/345; the group component
is an opaque tag, because `Group` defines no ordering methods.
-/

/-- A priority-queue entry as Python stores it: `(aggregate_time, group)`,
the group identified by an opaque tag. -/
abbrev HeapEntry := ℚ × ℕ

/-- Python tuple `<` on two queue entries: lexicographic, except that when
the time keys are equal Python falls through to `group1 < group2`, which
raises `TypeError` (`none`) since `Group` defines no ordering. -/
def entryLt (e1 e2 : HeapEntry) : Option Bool :=
  if e1.1 < e2.1 then some true
  else if e2.1 < e1.1 then some false
  else none

/-- `heapq._siftdown(heap, startpos, pos)`: bubble the new item up the
parent chain while `newitem < heap[parentpos]`; every comparison can raise
(`none`).  Fuelled by `pos`, which strictly decreases. -/
def siftdownGo (startpos : ℕ) (newitem : HeapEntry) :
    ℕ → ℕ → List HeapEntry → Option (List HeapEntry)
  | 0, pos, heap => some (heap.set pos newitem)
  | fuel + 1, pos, heap =>
    if startpos < pos then
      let parentpos := (pos - 1) / 2
      let parent := heap.getD parentpos (0, 0)
      match entryLt newitem parent with
      | none => none
      | some true => siftdownGo startpos newitem fuel parentpos (heap.set pos parent)
      | some false => some (heap.set pos newitem)
    else some (heap.set pos newitem)

/-- `heapq.heappush(heap, item)` as invoked by `queue.PriorityQueue.put`:
append the item and sift it down from the end. -/
def heappush (heap : List HeapEntry) (item : HeapEntry) : Option (List HeapEntry) :=
  siftdownGo 0 item (heap.length + 1) heap.length (heap ++ [item])

/-!
Theorems.
-/

/-- Value view of the staleness function (0 for the unknown-name case,
which is `none`). -/
noncomputable def stalVal (staleness_func : String) (s : ℝ) : ℝ :=
  (staleness staleness_func s).getD 0

lemma stalVal_constant (s : ℝ) : stalVal "constant" s = 1 := by
  simp [stalVal, staleness]

lemma stalVal_polynomial (s : ℝ) :
    stalVal "polynomial" s = (s + 1) ^ (-(1/2) : ℝ) := by
  simp [stalVal, staleness]

lemma stalVal_hinge (s : ℝ) :
    stalVal "hinge" s = if s ≤ 4 then 1 else 1 / (10 * (s - 4) + 1) := by
  simp [stalVal, staleness]

lemma stalVal_polynomial_strictAnti {u v : ℝ} (hu : 0 ≤ u) (huv : u < v) :
    stalVal "polynomial" v < stalVal "polynomial" u := by
  rw [stalVal_polynomial, stalVal_polynomial]
  have h1 : (0 : ℝ) < u + 1 := by linarith
  have h2 : (0 : ℝ) < v + 1 := by linarith
  rw [Real.rpow_neg h1.le, Real.rpow_neg h2.le]
  have h3 : (u + 1) ^ ((1 : ℝ)/2) < (v + 1) ^ ((1 : ℝ)/2) :=
    Real.rpow_lt_rpow h1.le (by linarith) (by norm_num)
  have h4 : (0 : ℝ) < (u + 1) ^ ((1 : ℝ)/2) := Real.rpow_pos_of_pos h1 _
  exact inv_strictAnti₀ h4 h3

lemma stalVal_hinge_antitone {u v : ℝ} (hu : 0 ≤ u) (huv : u ≤ v) :
    stalVal "hinge" v ≤ stalVal "hinge" u := by
  rw [stalVal_hinge, stalVal_hinge]
  by_cases hv : v ≤ 4
  · have hu4 : u ≤ 4 := le_trans huv hv
    simp [hv, hu4]
  · push_neg at hv
    have hv1 : (0 : ℝ) < 10 * (v - 4) + 1 := by linarith
    simp only [if_neg (not_le.mpr hv)]
    by_cases hu4 : u ≤ 4
    · simp only [if_pos hu4]
      calc 1 / (10 * (v - 4) + 1) ≤ 1 / 1 := by
            apply one_div_le_one_div_of_le
            · norm_num
            · linarith
        _ = 1 := by norm_num
    · push_neg at hu4
      simp only [if_neg (not_le.mpr hu4)]
      apply one_div_le_one_div_of_le
      · linarith
      · linarith

/-- C6: the staleness functions.  `constant` is identically 1;
`polynomial` is `(s+1)^(-0.5)` with value 1 at 0, strictly decreasing
(hence antitone) on `s ≥ 0`; `hinge` is 1 up to `s = 4` and
`1/(10(s-4)+1)` beyond, antitone on `s ≥ 0`. -/
theorem staleness_props_c6 :
    (∀ s : ℝ, 0 ≤ s → stalVal "constant" s = 1)
    ∧ (∀ s : ℝ, stalVal "polynomial" s = (s + 1) ^ (-(1/2) : ℝ))
    ∧ stalVal "polynomial" 0 = 1
    ∧ (∀ u v : ℝ, 0 ≤ u → u < v → stalVal "polynomial" v < stalVal "polynomial" u)
    ∧ (∀ s : ℝ, s ≤ 4 → stalVal "hinge" s = 1)
    ∧ (∀ s : ℝ, 4 < s → stalVal "hinge" s = 1 / (10 * (s - 4) + 1))
    ∧ (∀ u v : ℝ, 0 ≤ u → u ≤ v → stalVal "polynomial" v ≤ stalVal "polynomial" u)
    ∧ (∀ u v : ℝ, 0 ≤ u → u ≤ v → stalVal "hinge" v ≤ stalVal "hinge" u) := by
  refine ⟨fun s _ => stalVal_constant s, stalVal_polynomial, ?_, ?_, ?_, ?_, ?_, ?_⟩
  · rw [stalVal_polynomial]
    norm_num
  · exact fun u v hu huv => stalVal_polynomial_strictAnti hu huv
  · intro s hs
    rw [stalVal_hinge, if_pos hs]
  · intro s hs
    rw [stalVal_hinge, if_neg (not_le.mpr hs)]
  · intro u v hu huv
    rcases eq_or_lt_of_le huv with h | h
    · rw [h]
    · exact (stalVal_polynomial_strictAnti hu h).le
  · exact fun u v hu huv => stalVal_hinge_antitone hu huv

/-- Witness for C6 at concrete stalenesses. -/
theorem staleness_props_c6_witness :
    stalVal "constant" 3 = 1
    ∧ stalVal "hinge" 2 = 1
    ∧ stalVal "polynomial" 8 ≤ stalVal "polynomial" 3
    ∧ stalVal "hinge" 9 ≤ stalVal "hinge" 5 :=
  ⟨staleness_props_c6.1 3 (by norm_num),
   staleness_props_c6.2.2.2.2.1 2 (by norm_num),
   staleness_props_c6.2.2.2.2.2.2.1 3 8 (by norm_num) (by norm_num),
   staleness_props_c6.2.2.2.2.2.2.2 5 9 (by norm_num) (by norm_num)⟩

/-- C4 (code bug): the `heapq` push succeeds and orders entries when the
time keys are distinct, but the very first push of an entry whose
`aggregate_time` ties an entry already in the heap raises `TypeError`
(the tuple comparison falls through to the unorderable `Group` objects),
instead of succeeding with a deterministic tie-break. -/
theorem heappush_tie_c4 :
    heappush [] ((5 : ℚ), 0) = some [((5 : ℚ), 0)]
    ∧ (heappush [] ((3 : ℚ), 0)).bind (fun h => heappush h ((5 : ℚ), 1)) =
        some [((3 : ℚ), 0), ((5 : ℚ), 1)]
    ∧ (heappush [] ((5 : ℚ), 0)).bind (fun h => heappush h ((3 : ℚ), 1)) =
        some [((3 : ℚ), 1), ((5 : ℚ), 0)]
    ∧ (heappush [] ((5 : ℚ), 0)).bind (fun h => heappush h ((5 : ℚ), 1)) = none := by
  decide

lemma staleness_unknown {fname : String} (h1 : fname ≠ "constant")
    (h2 : fname ≠ "polynomial") (h3 : fname ≠ "hinge") (s : ℝ) :
    staleness fname s = none := by
  simp [staleness, h1, h2, h3]

lemma bind_const_none {α β : Type} (x : Option α) :
    (x.bind fun _ => (none : Option β)) = none := by
  cases x <;> rfl

lemma federated_async_unknown {T : Type} [AddCommGroup T] [Module ℝ T]
    {fname : String} (h1 : fname ≠ "constant") (h2 : fname ≠ "polynomial")
    (h3 : fname ≠ "hinge") (alpha : ℝ) (baseline : Weights T)
    (reports : List (Report T)) (s : ℝ) :
    federated_async alpha fname baseline reports s = none := by
  cases reports with
  | nil => rfl
  | cons r rs =>
    simp only [federated_async, extract_client_weights, List.map_cons]
    simp [staleness_unknown h1 h2 h3, bind_const_none]

/-- C9: an unknown synchrony mode makes both the per-round dispatch of
`AsyncServer.run` and `AsyncServer.aggregation` raise `NotImplementedError`
at their first use; an unknown staleness-function name makes `staleness`
fall through to `None`, so `federated_async` fails at its first aggregation
(the `TypeError` from `alpha * None`), whatever the reports are. -/
theorem unknown_config_fatal_c9 :
    (∀ (sync_type : String), sync_type ≠ "sync" → sync_type ≠ "async" →
      (∀ {T : Type} [AddCommGroup T] [Module ℝ T] (staleness_func : String)
          (alpha : ℝ) (model : Weights T) (reports : List (Report T)) (stal : ℝ),
        aggregation sync_type staleness_func alpha model reports stal = none)
      ∧ (∀ {M ρ : Type} (groupsOf : ℕ → List (Group ρ)) (aggS : M → List ρ → M)
          (aggA : M → List ρ → ℚ → M) (accOf : M → List ρ → ℚ) (T_async : ℚ)
          (fuel : ℕ) (target : Option ℚ) (round n : ℕ) (T_old : ℚ) (model : M)
          (records : Record),
        runRounds sync_type groupsOf aggS aggA accOf T_async fuel target
          round (n + 1) T_old model records = none))
    ∧ (∀ (staleness_func : String), staleness_func ≠ "constant" →
        staleness_func ≠ "polynomial" → staleness_func ≠ "hinge" →
      (∀ s : ℝ, staleness staleness_func s = none)
      ∧ (∀ {T : Type} [AddCommGroup T] [Module ℝ T] (alpha : ℝ)
          (baseline : Weights T) (reports : List (Report T)) (s : ℝ),
        federated_async alpha staleness_func baseline reports s = none)) := by
  constructor
  · intro sync_type h1 h2
    constructor
    · intro T i1 i2 staleness_func alpha model reports stal
      simp [aggregation, h1, h2]
    · intro M ρ groupsOf aggS aggA accOf T_async fuel target round n T_old model records
      simp [runRounds, h1, h2]
  · intro staleness_func h1 h2 h3
    exact ⟨staleness_unknown h1 h2 h3,
      fun alpha baseline reports s => federated_async_unknown h1 h2 h3 alpha baseline reports s⟩

/-- Witness for C9 at a concrete unknown mode and a concrete unknown
staleness name. -/
theorem unknown_config_fatal_c9_witness :
    aggregation "foo" "constant" 1 ([] : Weights ℝ) [] 0 = none
    ∧ runRounds "foo" (fun _ => ([] : List (Group Unit))) (fun (m : ℚ) _ => m)
        (fun m _ _ => m) (fun _ _ => 0) 10 3 none 1 1 0 0 ⟨[], []⟩ = none
    ∧ staleness "bar" 0 = none
    ∧ federated_async 1 "bar" ([] : Weights ℝ) [] 0 = none :=
  ⟨(unknown_config_fatal_c9.1 "foo" (by decide) (by decide)).1 "constant" 1 [] [] 0,
   (unknown_config_fatal_c9.1 "foo" (by decide) (by decide)).2
     (fun _ => ([] : List (Group Unit))) (fun (m : ℚ) _ => m) (fun m _ _ => m)
     (fun _ _ => 0) 10 3 none 1 0 0 0 ⟨[], []⟩,
   (unknown_config_fatal_c9.2 "bar" (by decide) (by decide) (by decide)).1 0,
   (unknown_config_fatal_c9.2 "bar" (by decide) (by decide) (by decide)).2 1 [] [] 0⟩

/-- Counterexample to C7 as stated: a batch with total sample count zero
is not always rejected.  When every report carries an empty weight list and
the baseline model has no tensors, the per-element division
`num_samples / total_samples` is never executed (it sits inside the loop
over tensors), so both aggregators return the empty weight list instead of
failing. -/
theorem zero_total_not_rejected_c7 :
    totalSamples [(⟨0, [], 0, 0⟩ : Report ℚ)] = 0
    ∧ federated_averaging ℚ ([] : Weights ℚ) [⟨0, [], 0, 0⟩] = some []
    ∧ totalSamples [(⟨0, [], 0, 0⟩ : Report ℝ)] = 0
    ∧ federated_async 1 "constant" ([] : Weights ℝ) [⟨0, [], 0, 0⟩] 0 = some [] := by
  refine ⟨by decide, by decide, by decide, ?_⟩
  simp [federated_async, extract_client_weights, totalSamples, foldUpdates, avgAdd,
    staleness, blendAligned]

lemma updateOne_some_nil {T : Type} [AddCommGroup T] {w bw : Weights T}
    (h : updateOne w bw = some []) : w = [] := by
  cases w with
  | nil => rfl
  | cons p ps =>
    exfalso
    obtain ⟨n, x⟩ := p
    cases bw with
    | nil => simp [updateOne] at h
    | cons b bs =>
      obtain ⟨bn, bx⟩ := b
      by_cases hn : n = bn
      · simp [updateOne, hn] at h
      · simp [updateOne, hn] at h

lemma updateOne_nil_of_weights_nil {T : Type} [AddCommGroup T] (bw : Weights T) :
    updateOne ([] : Weights T) bw = some [] := rfl

lemma mapOption_forall2 {α β : Type} {f : α → Option β} :
    ∀ {xs : List α} {ys : List β}, mapOption f xs = some ys →
      List.Forall₂ (fun x y => f x = some y) xs ys := by
  intro xs
  induction xs with
  | nil =>
    intro ys h
    simp only [mapOption, Option.some_inj] at h
    subst h
    exact List.Forall₂.nil
  | cons x xs ih =>
    intro ys h
    cases hfx : f x with
    | none => simp [mapOption, hfx] at h
    | some y =>
      cases hrest : mapOption f xs with
      | none => simp [mapOption, hfx, hrest] at h
      | some zs =>
        have h2 : y :: zs = ys := by simpa [mapOption, hfx, hrest] using h
        subst h2
        exact List.Forall₂.cons hfx (ih hrest)

lemma forall2_mem_left {α β : Type} {R : α → β → Prop} :
    ∀ {xs : List α} {ys : List β}, List.Forall₂ R xs ys → ∀ x ∈ xs, ∃ y ∈ ys, R x y := by
  intro xs ys h
  induction h with
  | nil => intro x hx; cases hx
  | cons hR _ ih =>
    intro x hx
    rcases List.mem_cons.mp hx with rfl | hx2
    · exact ⟨_, List.mem_cons_self _ _, hR⟩
    · obtain ⟨y, hy, hRy⟩ := ih x hx2
      exact ⟨y, List.mem_cons_of_mem _ hy, hRy⟩

lemma avgAdd_nil_right (K : Type) [Field K] {T : Type} [AddCommGroup T] [Module K T]
    (n total : ℕ) (acc : List T) : avgAdd K n total acc [] = some acc := by
  cases acc <;> rfl

lemma foldUpdates_nil_all_nil (K : Type) [Field K] {T : Type} [AddCommGroup T]
    [Module K T] (total : ℕ) :
    ∀ (pairs : List (Weights T × ℕ)), (∀ p ∈ pairs, p.1 = []) →
      foldUpdates K total ([] : List T) pairs = some [] := by
  intro pairs
  induction pairs with
  | nil => intro _; rfl
  | cons p ps ih =>
    intro h
    obtain ⟨u, n⟩ := p
    have hu : u = [] := h (u, n) (List.mem_cons_self _ _)
    subst hu
    simpa [foldUpdates] using ih fun q hq => h q (List.mem_cons_of_mem _ hq)

lemma foldUpdates_nil_exists_ne (K : Type) [Field K] {T : Type} [AddCommGroup T]
    [Module K T] (total : ℕ) :
    ∀ (pairs : List (Weights T × ℕ)), (∃ p ∈ pairs, p.1 ≠ []) →
      foldUpdates K total ([] : List T) pairs = none := by
  intro pairs
  induction pairs with
  | nil => rintro ⟨p, hp, -⟩; cases hp
  | cons p ps ih =>
    rintro ⟨q, hq, hqne⟩
    obtain ⟨u, n⟩ := p
    cases hu : u with
    | nil =>
      subst hu
      rcases List.mem_cons.mp hq with rfl | hq2
      · exact absurd rfl hqne
      · simpa [foldUpdates, avgAdd_nil_right] using ih ⟨q, hq2, hqne⟩
    | cons v vs =>
      obtain ⟨nm, d⟩ := v
      simp [foldUpdates, avgAdd]

lemma forall2_mem_right {α β : Type} {R : α → β → Prop} :
    ∀ {xs : List α} {ys : List β}, List.Forall₂ R xs ys → ∀ y ∈ ys, ∃ x ∈ xs, R x y := by
  intro xs ys h
  induction h with
  | nil => intro y hy; cases hy
  | cons hR _ ih =>
    intro y hy
    rcases List.mem_cons.mp hy with rfl | hy2
    · exact ⟨_, List.mem_cons_self _ _, hR⟩
    · obtain ⟨x, hx, hRx⟩ := ih y hy2
      exact ⟨x, List.mem_cons_of_mem _ hx, hRx⟩

/-- C7 amended: both aggregators fail on an empty batch, and fail on a
zero-total batch in every case except the degenerate one where the
baseline has no tensors and every report's weight list is empty (see
`zero_total_not_rejected_c7`). -/
theorem reject_empty_or_zero_c7 :
    (∀ (K : Type) [Field K] {T : Type} [AddCommGroup T] [Module K T]
        (baseline : Weights T) (reports : List (Report T)),
      reports = [] ∨ (totalSamples reports = 0 ∧
        (baseline ≠ [] ∨ ∃ r ∈ reports, r.weights ≠ [])) →
      federated_averaging K baseline reports = none)
    ∧ (∀ {T : Type} [AddCommGroup T] [Module ℝ T] (alpha : ℝ) (fname : String)
        (baseline : Weights T) (reports : List (Report T)) (s : ℝ),
      reports = [] ∨ (totalSamples reports = 0 ∧
        (baseline ≠ [] ∨ ∃ r ∈ reports, r.weights ≠ [])) →
      federated_async alpha fname baseline reports s = none) := by
  constructor
  · intro K iK T i1 i2 baseline reports h
    rcases h with rfl | ⟨htot, hne⟩
    · rfl
    cases reports with
    | nil => rfl
    | cons r0 rs =>
      cases hx : extract_client_updates baseline (r0 :: rs) with
      | none => simp [federated_averaging, hx]
      | some updates =>
        have hf2 := mapOption_forall2 hx
        cases updates with
        | nil => cases hf2
        | cons u0 us =>
          have hu0 : updateOne r0.weights baseline = some u0 := by
            cases hf2 with | cons h1 _ => exact h1
          simp only [federated_averaging, hx, Option.some_bind]
          by_cases hu0nil : u0 = []
          · subst hu0nil
            by_cases hex : ∃ r ∈ (r0 :: rs), Report.weights r ≠ []
            · have hlen : (([] : Weights T) :: us).length ≤
                  ((r0 :: rs).map fun r => r.num_samples).length := by
                have hl := List.Forall₂.length_eq hf2
                simp [← hl]
              have hmem : ∃ p ∈ ((([] : Weights T) :: us).zip
                  ((r0 :: rs).map fun r => r.num_samples)), p.1 ≠ [] := by
                obtain ⟨r, hr, hrw⟩ := hex
                obtain ⟨u, hu, hru⟩ := forall2_mem_left hf2 r hr
                have hune : u ≠ [] := fun hunil =>
                  hrw (updateOne_some_nil (hunil ▸ hru))
                have hfst := List.map_fst_zip (([] : Weights T) :: us)
                  ((r0 :: rs).map fun r => r.num_samples) hlen
                rw [← hfst] at hu
                obtain ⟨p, hp, hpu⟩ := List.mem_map.mp hu
                exact ⟨p, hp, by rw [hpu]; exact hune⟩
              have hfold := foldUpdates_nil_exists_ne K (totalSamples (r0 :: rs)) _ hmem
              simp only [List.map_cons, List.zip_cons_cons] at hfold
              simp [hfold]
            · push_neg at hex
              have hb : baseline ≠ [] := by
                rcases hne with hb | hex2
                · exact hb
                · obtain ⟨r, hr, hrw⟩ := hex2
                  exact absurd (hex r hr) hrw
              have hallp : ∀ p ∈ ((([] : Weights T) :: us).zip
                  ((r0 :: rs).map fun r => r.num_samples)), p.1 = [] := by
                intro p hp
                have hp1 := (List.of_mem_zip hp).1
                obtain ⟨r, hr, hru⟩ := forall2_mem_right hf2 p.1 hp1
                rw [hex r hr, updateOne_nil_of_weights_nil] at hru
                exact (Option.some_inj.mp hru).symm
              have hfold := foldUpdates_nil_all_nil K (totalSamples (r0 :: rs)) _ hallp
              simp only [List.map_cons, List.zip_cons_cons] at hfold
              cases baseline with
              | nil => exact absurd rfl hb
              | cons b bs => simp [hfold, addAligned]
          · cases hu0c : u0 with
            | nil => exact absurd hu0c hu0nil
            | cons q u0t =>
              obtain ⟨qn, qd⟩ := q
              simp [hu0c, foldUpdates, avgAdd, htot]
  · intro T i1 i2 alpha fname baseline reports s h
    rcases h with rfl | ⟨htot, hne⟩
    · rfl
    cases reports with
    | nil => rfl
    | cons r0 rs =>
      simp only [federated_async, extract_client_weights, List.map_cons]
      by_cases hw0 : r0.weights = []
      · rw [hw0]
        by_cases hex : ∃ r ∈ (r0 :: rs), Report.weights r ≠ []
        · have hlen : (([] : Weights T) :: rs.map fun r => r.weights).length ≤
              ((r0 :: rs).map fun r => r.num_samples).length := by simp
          have hmem : ∃ p ∈ ((([] : Weights T) :: rs.map fun r => r.weights).zip
              ((r0 :: rs).map fun r => r.num_samples)), p.1 ≠ [] := by
            obtain ⟨r, hr, hrw⟩ := hex
            have hu : Report.weights r ∈ (([] : Weights T) :: rs.map fun r => r.weights) := by
              rcases List.mem_cons.mp hr with rfl | hr2
              · rw [← hw0]; exact List.mem_cons_self _ _
              · exact List.mem_cons_of_mem _ (List.mem_map_of_mem _ hr2)
            have hfst := List.map_fst_zip (([] : Weights T) :: rs.map fun r => r.weights)
              ((r0 :: rs).map fun r => r.num_samples) hlen
            rw [← hfst] at hu
            obtain ⟨p, hp, hpu⟩ := List.mem_map.mp hu
            exact ⟨p, hp, by rw [hpu]; exact hrw⟩
          have hfold := foldUpdates_nil_exists_ne ℝ (totalSamples (r0 :: rs)) _ hmem
          simp only [List.map_cons, List.zip_cons_cons] at hfold
          simp [hfold]
        · push_neg at hex
          have hb : baseline ≠ [] := by
            rcases hne with hb | hex2
            · exact hb
            · obtain ⟨r, hr, hrw⟩ := hex2
              exact absurd (hex r hr) hrw
          have hallp : ∀ p ∈ ((([] : Weights T) :: rs.map fun r => r.weights).zip
              ((r0 :: rs).map fun r => r.num_samples)), p.1 = [] := by
            intro p hp
            have hp1 := (List.of_mem_zip hp).1
            rcases List.mem_cons.mp hp1 with h1 | h1
            · exact h1
            · obtain ⟨r, hr, hru⟩ := List.mem_map.mp h1
              rw [← hru]
              exact hex r (List.mem_cons_of_mem _ hr)
          have hfold := foldUpdates_nil_all_nil ℝ (totalSamples (r0 :: rs)) _ hallp
          simp only [List.map_cons, List.zip_cons_cons] at hfold
          cases baseline with
          | nil => exact absurd rfl hb
          | cons b bs => simp [hfold, blendAligned, bind_const_none]
      · cases hqw : r0.weights with
        | nil => exact absurd hqw hw0
        | cons q qs =>
          obtain ⟨qn, qd⟩ := q
          simp [hqw, foldUpdates, avgAdd, htot]

/-- Witness for C7 on concrete empty batches. -/
theorem reject_empty_or_zero_c7_witness :
    federated_averaging ℚ [("w", (1 : ℚ))] [] = none
    ∧ federated_async 1 "constant" [("w", (1 : ℝ))] [] 0 = none :=
  ⟨reject_empty_or_zero_c7.1 ℚ [("w", 1)] [] (Or.inl rfl),
   reject_empty_or_zero_c7.2 1 "constant" [("w", 1)] [] 0 (Or.inl rfl)⟩

lemma updateOne_mismatch {T : Type} [AddCommGroup T] :
    ∀ (w bw : Weights T) (j : ℕ), j < w.length → j < bw.length →
      (w.getD j ("", 0)).1 ≠ (bw.getD j ("", 0)).1 → updateOne w bw = none := by
  intro w
  induction w with
  | nil =>
    intro bw j hj1 _ _
    simp at hj1
  | cons p ps ih =>
    intro bw j hj1 hj2 hnm
    obtain ⟨n, x⟩ := p
    cases bw with
    | nil => simp at hj2
    | cons b bs =>
      obtain ⟨bn, bx⟩ := b
      cases j with
      | zero =>
        simp only [List.getD_cons_zero] at hnm
        simp [updateOne, hnm]
      | succ j =>
        simp only [List.getD_cons_succ] at hnm
        simp only [List.length_cons, Nat.succ_lt_succ_iff] at hj1 hj2
        by_cases hn : n = bn
        · simp [updateOne, hn, ih bs j hj1 hj2 hnm]
        · simp [updateOne, hn]

lemma mapOption_none_of_mem {α β : Type} {f : α → Option β} :
    ∀ {xs : List α} (x : α), x ∈ xs → f x = none → mapOption f xs = none := by
  intro xs
  induction xs with
  | nil => intro x hx; cases hx
  | cons y ys ih =>
    intro x hx hfx
    rcases List.mem_cons.mp hx with rfl | hx2
    · simp [mapOption, hfx]
    · cases hfy : f y with
      | none => simp [mapOption, hfy]
      | some z => simp [mapOption, hfy, ih x hx2 hfx]

lemma avgAdd_rename {K : Type} [Field K] {T : Type} [AddCommGroup T] [Module K T]
    (f : String → String) (n total : ℕ) :
    ∀ (acc : List T) (u : Weights T),
      avgAdd K n total acc (u.map fun q => (f q.1, q.2)) = avgAdd K n total acc u := by
  intro acc
  induction acc with
  | nil =>
    intro u
    cases u with
    | nil => rfl
    | cons q qs => obtain ⟨qn, qd⟩ := q; rfl
  | cons a as ih =>
    intro u
    cases u with
    | nil => rfl
    | cons q qs =>
      obtain ⟨qn, qd⟩ := q
      simp [avgAdd, ih qs]

lemma foldUpdates_rename {K : Type} [Field K] {T : Type} [AddCommGroup T] [Module K T]
    (f : String → String) (total : ℕ) :
    ∀ (pairs : List (Weights T × ℕ)) (acc : List T),
      foldUpdates K total acc
        (pairs.map (Prod.map (fun w : Weights T => w.map fun q => (f q.1, q.2)) id)) =
      foldUpdates K total acc pairs := by
  intro pairs
  induction pairs with
  | nil => intro acc; rfl
  | cons p ps ih =>
    intro acc
    obtain ⟨u, n⟩ := p
    simp only [List.map_cons, Prod.map_apply, id_eq, foldUpdates, avgAdd_rename]
    cases h : avgAdd K n total acc u with
    | none => rfl
    | some acc2 => simp [h, ih]

/-- Counterexample to C8 as stated: in async mode a report whose tensor
name disagrees with the baseline at position 0 is not rejected;
`federated_async` combines the values positionally and keeps the
baseline's name. -/
theorem async_no_name_check_c8 :
    federated_async 1 "constant" [("a", (0 : ℝ))] [⟨0, [("b", (1 : ℝ))], 1, 0⟩] 0 =
      some [("a", (1 : ℝ))] := by
  simp [federated_async, extract_client_weights, totalSamples, foldUpdates, avgAdd,
    staleness, blendAligned]

/-- C8 amended: in sync aggregation a name mismatch at any aligned
position is fatal (`assert name == bl_name` aborts
`extract_client_updates`, hence `federated_averaging`); async aggregation
performs no name verification at all — renaming every tensor of every
report leaves `federated_async` unchanged. -/
theorem name_mismatch_c8 :
    (∀ (K : Type) [Field K] {T : Type} [AddCommGroup T] [Module K T]
        (baseline : Weights T) (reports : List (Report T)),
      (∃ r ∈ reports, ∃ j : ℕ, j < r.weights.length ∧ j < baseline.length ∧
        (r.weights.getD j ("", 0)).1 ≠ (baseline.getD j ("", 0)).1) →
      extract_client_updates baseline reports = none
      ∧ federated_averaging K baseline reports = none)
    ∧ (∀ {T : Type} [AddCommGroup T] [Module ℝ T] (rn : String → String)
        (alpha : ℝ) (staleness_func : String) (baseline : Weights T)
        (reports1 reports2 : List (Report T)) (s : ℝ),
      extract_client_weights reports1 =
        (extract_client_weights reports2).map (fun w => w.map fun q => (rn q.1, q.2)) →
      reports1.map (fun r => r.num_samples) = reports2.map (fun r => r.num_samples) →
      federated_async alpha staleness_func baseline reports1 s =
        federated_async alpha staleness_func baseline reports2 s) := by
  constructor
  · intro K iK T i1 i2 baseline reports hex
    obtain ⟨r, hr, j, hj1, hj2, hnm⟩ := hex
    have hup : updateOne r.weights baseline = none :=
      updateOne_mismatch _ _ j hj1 hj2 hnm
    have hext : extract_client_updates baseline reports = none :=
      mapOption_none_of_mem r hr hup
    exact ⟨hext, by simp [federated_averaging, hext]⟩
  · intro T i1 i2 rn alpha staleness_func baseline reports1 reports2 s hw hn
    have htot : totalSamples reports1 = totalSamples reports2 := by
      simp [totalSamples, hn]
    cases reports2 with
    | nil =>
      have h1 : reports1 = [] := by
        simpa [extract_client_weights] using hw
      subst h1
      rfl
    | cons r0 rs =>
      obtain ⟨r0x, rsx, rfl⟩ : ∃ a l, reports1 = a :: l := by
        cases reports1 with
        | nil => simp [extract_client_weights] at hw
        | cons a l => exact ⟨a, l, rfl⟩
      simp only [extract_client_weights, List.map_cons] at hw
      injection hw with hw0 hwt
      simp only [List.map_cons] at hn
      injection hn with hn0 hnt
      simp only [federated_async, extract_client_weights, List.map_cons]
      rw [htot, hw0, hwt, hn0, hnt]
      have hz : (List.map (fun q => (rn q.1, q.2)) r0.weights ::
          List.map (fun w => List.map (fun q => (rn q.1, q.2)) w) (List.map (fun r => r.weights) rs)) =
          ((r0.weights :: rs.map fun r => r.weights).map
            fun w : Weights T => w.map fun q => (rn q.1, q.2)) := by
        simp
      rw [hz, List.zip_map_left]
      have hi : List.map (fun _ => (0 : T)) (List.map (fun q => (rn q.1, q.2)) r0.weights) =
          List.map (fun _ => (0 : T)) r0.weights := by
        rw [List.map_map]
        rfl
      rw [hi, foldUpdates_rename]

/-- Witness for C8: a concrete sync batch whose tensor name disagrees with
the baseline is rejected, and a concrete async batch aggregates identically
under renaming. -/
theorem name_mismatch_c8_witness :
    extract_client_updates [("a", (0 : ℚ))] [⟨0, [("b", (2 : ℚ))], 1, 0⟩] = none
    ∧ federated_averaging ℚ [("a", (0 : ℚ))] [⟨0, [("b", (2 : ℚ))], 1, 0⟩] = none
    ∧ federated_async 1 "constant" [("a", (0 : ℝ))] [⟨0, [("c", (1 : ℝ))], 1, 0⟩] 0 =
        federated_async 1 "constant" [("a", (0 : ℝ))] [⟨0, [("b", (1 : ℝ))], 1, 0⟩] 0 := by
  have h1 := name_mismatch_c8.1 ℚ [("a", (0 : ℚ))] [⟨0, [("b", (2 : ℚ))], 1, 0⟩]
    ⟨⟨0, [("b", (2 : ℚ))], 1, 0⟩, List.mem_singleton.mpr rfl, 0, by decide, by decide, by decide⟩
  exact ⟨h1.1, h1.2,
    name_mismatch_c8.2 (fun _ => "c") 1 "constant" [("a", (0 : ℝ))]
      [⟨0, [("c", (1 : ℝ))], 1, 0⟩] [⟨0, [("b", (1 : ℝ))], 1, 0⟩] 0 rfl rfl⟩

lemma updateOne_of_names {T : Type} [AddCommGroup T] :
    ∀ (w bw : Weights T), w.map Prod.fst = bw.map Prod.fst →
      updateOne w bw = some (List.zipWith (fun p b => (p.1, p.2 - b.2)) w bw) := by
  intro w
  induction w with
  | nil => intro bw _; rfl
  | cons p ps ih =>
    intro bw h
    cases bw with
    | nil => simp at h
    | cons b bs =>
      obtain ⟨n, x⟩ := p
      obtain ⟨bn, bx⟩ := b
      simp only [List.map_cons, List.cons.injEq] at h
      obtain ⟨hn, ht⟩ := h
      simp [updateOne, hn, ih bs ht]

lemma mapOption_eq_map {α β : Type} {f : α → Option β} {g : α → β} :
    ∀ {xs : List α}, (∀ x ∈ xs, f x = some (g x)) → mapOption f xs = some (xs.map g) := by
  intro xs
  induction xs with
  | nil => intro _; rfl
  | cons x xs ih =>
    intro h
    simp [mapOption, h x (List.mem_cons_self _ _),
      ih fun y hy => h y (List.mem_cons_of_mem _ hy)]

lemma extract_client_updates_of_names {T : Type} [AddCommGroup T]
    (baseline : Weights T) (reports : List (Report T))
    (h : ∀ r ∈ reports, r.weights.map Prod.fst = baseline.map Prod.fst) :
    extract_client_updates baseline reports =
      some (reports.map fun r =>
        List.zipWith (fun p b => (p.1, p.2 - b.2)) r.weights baseline) :=
  mapOption_eq_map fun r hr => updateOne_of_names r.weights baseline (h r hr)

/-- Pure value of `avgAdd` when the division is defined: add `c`-scaled
update entries onto the accumulator positionally. -/
def addScaled {K : Type} [Field K] {T : Type} [AddCommGroup T] [Module K T]
    (c : K) : List T → Weights T → List T
  | acc, [] => acc
  | [], _ :: _ => []
  | a :: as, (_, d) :: ds => (a + c • d) :: addScaled c as ds

lemma avgAdd_eq_addScaled {K : Type} [Field K] {T : Type} [AddCommGroup T] [Module K T]
    (n total : ℕ) (htot : total ≠ 0) :
    ∀ (acc : List T) (u : Weights T), u.length ≤ acc.length →
      avgAdd K n total acc u = some (addScaled ((n : K) / (total : K)) acc u) := by
  intro acc
  induction acc with
  | nil =>
    intro u hu
    cases u with
    | nil => rfl
    | cons q qs => simp at hu
  | cons a as ih =>
    intro u hu
    cases u with
    | nil => rfl
    | cons q qs =>
      obtain ⟨qn, qd⟩ := q
      simp only [List.length_cons, Nat.succ_le_succ_iff] at hu
      simp [avgAdd, addScaled, htot, ih qs hu]

lemma addScaled_length {K : Type} [Field K] {T : Type} [AddCommGroup T] [Module K T]
    (c : K) : ∀ (acc : List T) (u : Weights T), (addScaled c acc u).length = acc.length := by
  intro acc
  induction acc with
  | nil => intro u; cases u <;> rfl
  | cons a as ih =>
    intro u
    cases u with
    | nil => rfl
    | cons q qs =>
      obtain ⟨qn, qd⟩ := q
      simp [addScaled, ih qs]

lemma addScaled_getD {K : Type} [Field K] {T : Type} [AddCommGroup T] [Module K T]
    (c : K) : ∀ (acc : List T) (u : Weights T), u.length = acc.length → ∀ j : ℕ,
      (addScaled c acc u).getD j 0 = acc.getD j 0 + c • (u.getD j ("", 0)).2 := by
  intro acc
  induction acc with
  | nil =>
    intro u hu j
    cases u with
    | nil => simp [addScaled]
    | cons q qs => simp at hu
  | cons a as ih =>
    intro u hu j
    cases u with
    | nil => simp at hu
    | cons q qs =>
      obtain ⟨qn, qd⟩ := q
      simp only [List.length_cons, Nat.succ_inj] at hu
      cases j with
      | zero => simp [addScaled]
      | succ j =>
        simp only [addScaled, List.getD_cons_succ]
        exact ih qs hu j

lemma foldUpdates_eq {K : Type} [Field K] {T : Type} [AddCommGroup T] [Module K T]
    (total : ℕ) (htot : total ≠ 0) :
    ∀ (pairs : List (Weights T × ℕ)) (acc : List T),
      (∀ p ∈ pairs, p.1.length = acc.length) →
      ∃ final, foldUpdates K total acc pairs = some final
        ∧ final.length = acc.length
        ∧ ∀ j : ℕ, final.getD j 0 = acc.getD j 0 +
            (pairs.map fun p => ((p.2 : K) / (total : K)) • (p.1.getD j ("", 0)).2).sum := by
  intro pairs
  induction pairs with
  | nil =>
    intro acc _
    exact ⟨acc, rfl, rfl, by simp⟩
  | cons p ps ih =>
    intro acc hlen
    obtain ⟨u, n⟩ := p
    have hu : u.length = acc.length := hlen (u, n) (List.mem_cons_self _ _)
    have h1 := avgAdd_eq_addScaled (K := K) (T := T) n total htot acc u (le_of_eq hu)
    have hlen2 : ∀ q ∈ ps, q.1.length = (addScaled ((n : K) / (total : K)) acc u).length := by
      intro q hq
      rw [addScaled_length]
      exact hlen q (List.mem_cons_of_mem _ hq)
    obtain ⟨final, hf, hflen, hfj⟩ := ih (addScaled ((n : K) / (total : K)) acc u) hlen2
    refine ⟨final, ?_, ?_, ?_⟩
    · simp [foldUpdates, h1, hf]
    · rw [hflen, addScaled_length]
    · intro j
      rw [hfj j, addScaled_getD ((n : K) / (total : K)) acc u hu j]
      simp [add_assoc]

lemma getD_map_zero {α T : Type} [AddCommGroup T] :
    ∀ (l : List α) (j : ℕ), (l.map fun _ => (0 : T)).getD j 0 = 0 := by
  intro l
  induction l with
  | nil => intro j; simp
  | cons x xs ih =>
    intro j
    cases j with
    | zero => rfl
    | succ j => simpa using ih j

lemma addAligned_eq {T : Type} [AddCommGroup T] :
    ∀ (bl : Weights T) (avg : List T), bl.length ≤ avg.length →
      addAligned bl avg = some (List.zipWith (fun b a => (b.1, b.2 + a)) bl avg) := by
  intro bl
  induction bl with
  | nil => intro avg _; rfl
  | cons b bs ih =>
    intro avg h
    cases avg with
    | nil => simp at h
    | cons a as =>
      obtain ⟨bn, bx⟩ := b
      simp only [List.length_cons, Nat.succ_le_succ_iff] at h
      simp [addAligned, ih as h]

lemma blendAligned_eq (alpha_t : ℝ) {T : Type} [AddCommGroup T] [Module ℝ T] :
    ∀ (bl : Weights T) (v : List T), bl.length ≤ v.length →
      blendAligned alpha_t bl v =
        some (List.zipWith (fun b a => (b.1, (1 - alpha_t) • b.2 + alpha_t • a)) bl v) := by
  intro bl
  induction bl with
  | nil => intro v _; rfl
  | cons b bs ih =>
    intro v h
    cases v with
    | nil => simp at h
    | cons a as =>
      obtain ⟨bn, bx⟩ := b
      simp only [List.length_cons, Nat.succ_le_succ_iff] at h
      simp [blendAligned, ih as h]

lemma zipWith_getD {α β γ : Type} (f : α → β → γ) (dx : α) (dy : β) (dz : γ) :
    ∀ (xs : List α) (ys : List β) (j : ℕ), j < xs.length → j < ys.length →
      (List.zipWith f xs ys).getD j dz = f (xs.getD j dx) (ys.getD j dy) := by
  intro xs
  induction xs with
  | nil => intro ys j h1 _; simp at h1
  | cons x xs ih =>
    intro ys j h1 h2
    cases ys with
    | nil => simp at h2
    | cons y ys =>
      cases j with
      | zero => rfl
      | succ j =>
        simp only [List.length_cons, Nat.succ_lt_succ_iff] at h1 h2
        simpa [List.getD_cons_succ] using ih ys j h1 h2

/-- C1: sync aggregation is exactly the spec's sample-weighted average.
For a non-empty batch whose reports carry the baseline's tensor names in
the baseline's order and whose total sample count is positive,
`federated_averaging` returns, for each named tensor,
`baseline + Σ_i (weight_i − baseline) · (num_samples_i / total)`
(`specFedAvg`, written from the spec's words). -/
theorem fedavg_formula_c1 (K : Type) [Field K] {T : Type} [AddCommGroup T] [Module K T]
    (baseline : Weights T) (reports : List (Report T))
    (hne : reports ≠ [])
    (hnm : ∀ r ∈ reports, r.weights.map Prod.fst = baseline.map Prod.fst)
    (htot : totalSamples reports ≠ 0) :
    federated_averaging K baseline reports = some (specFedAvg K baseline reports) := by
  have hwlen : ∀ r ∈ reports, r.weights.length = baseline.length := by
    intro r hr
    simpa using congrArg List.length (hnm r hr)
  obtain ⟨r0, rs, rfl⟩ : ∃ a l, reports = a :: l := by
    cases reports with
    | nil => exact absurd rfl hne
    | cons a l => exact ⟨a, l, rfl⟩
  have hext : extract_client_updates baseline (r0 :: rs) =
      some ((List.zipWith (fun p b => (p.1, p.2 - b.2)) r0.weights baseline) ::
        rs.map fun r => List.zipWith (fun p b => (p.1, p.2 - b.2)) r.weights baseline) := by
    rw [extract_client_updates_of_names baseline (r0 :: rs) hnm]
    simp
  have hstep1 : federated_averaging K baseline (r0 :: rs) =
      (foldUpdates K (totalSamples (r0 :: rs))
        ((List.zipWith (fun p b => (p.1, p.2 - b.2)) r0.weights baseline).map fun _ => (0 : T))
        (((List.zipWith (fun p b => (p.1, p.2 - b.2)) r0.weights baseline) ::
            rs.map fun r => List.zipWith (fun p b => (p.1, p.2 - b.2)) r.weights baseline).zip
          ((r0 :: rs).map fun r => r.num_samples))).bind
        (fun avg => addAligned baseline avg) := by
    simp only [federated_averaging, hext, Option.some_bind]
  have hr0len : (List.zipWith (fun p b => (p.1, p.2 - b.2)) r0.weights baseline).length =
      baseline.length := by
    rw [List.length_zipWith, hwlen r0 (List.mem_cons_self _ _), min_self]
  have hinitlen : ((List.zipWith (fun p b => (p.1, p.2 - b.2)) r0.weights baseline).map
      fun _ => (0 : T)).length = baseline.length := by
    rw [List.length_map, hr0len]
  have hplen : ∀ p ∈ (((List.zipWith (fun p b => (p.1, p.2 - b.2)) r0.weights baseline) ::
      rs.map fun r => List.zipWith (fun p b => (p.1, p.2 - b.2)) r.weights baseline).zip
      ((r0 :: rs).map fun r => r.num_samples)),
      p.1.length = ((List.zipWith (fun p b => (p.1, p.2 - b.2)) r0.weights baseline).map
        fun _ => (0 : T)).length := by
    intro p hp
    rw [hinitlen]
    have h1 := (List.of_mem_zip hp).1
    rcases List.mem_cons.mp h1 with h2 | h2
    · rw [h2]
      exact hr0len
    · obtain ⟨r, hr, hru⟩ := List.mem_map.mp h2
      rw [← hru, List.length_zipWith, hwlen r (List.mem_cons_of_mem _ hr), min_self]
  obtain ⟨final, hf, hflen, hfj⟩ := foldUpdates_eq (K := K) (totalSamples (r0 :: rs)) htot _ _ hplen
  rw [hstep1, hf, Option.some_bind]
  have hblen : baseline.length ≤ final.length := by
    rw [hflen, hinitlen]
  rw [addAligned_eq baseline final hblen]
  refine congrArg some (List.ext_getElem ?_ ?_)
  · rw [List.length_zipWith, Nat.min_eq_left hblen]
    simp [specFedAvg]
  · intro i h1 h2
    have hib : i < baseline.length :=
      lt_of_lt_of_le h1 (by rw [List.length_zipWith]; exact min_le_left _ _)
    have hif : i < final.length :=
      lt_of_lt_of_le h1 (by rw [List.length_zipWith]; exact min_le_right _ _)
    rw [List.getElem_zipWith]
    have hspec : (specFedAvg K baseline (r0 :: rs))[i] =
        ((baseline.getD i ("", 0)).1,
          (baseline.getD i ("", 0)).2 + ((r0 :: rs).map fun r =>
            ((r.num_samples : K) / (totalSamples (r0 :: rs) : K)) •
              ((r.weights.getD i ("", 0)).2 - (baseline.getD i ("", 0)).2)).sum) := by
      simp only [specFedAvg, List.getElem_map, List.getElem_range]
    rw [hspec]
    rw [← List.getD_eq_getElem baseline ("", 0) hib, ← List.getD_eq_getElem final 0 hif]
    rw [hfj i, getD_map_zero, zero_add]
    have hsum : ((((List.zipWith (fun p b => (p.1, p.2 - b.2)) r0.weights baseline) ::
        rs.map fun r => List.zipWith (fun p b => (p.1, p.2 - b.2)) r.weights baseline).zip
        ((r0 :: rs).map fun r => r.num_samples)).map fun p =>
          ((p.2 : K) / (totalSamples (r0 :: rs) : K)) • (p.1.getD i ("", 0)).2).sum =
        ((r0 :: rs).map fun r =>
          ((r.num_samples : K) / (totalSamples (r0 :: rs) : K)) •
            ((r.weights.getD i ("", 0)).2 - (baseline.getD i ("", 0)).2)).sum := by
      have hzm : ((List.zipWith (fun p b => (p.1, p.2 - b.2)) r0.weights baseline) ::
          rs.map fun r => List.zipWith (fun p b => (p.1, p.2 - b.2)) r.weights baseline) =
          (r0 :: rs).map fun r =>
            List.zipWith (fun p b => (p.1, p.2 - b.2)) r.weights baseline := rfl
      rw [hzm, List.zip_map', List.map_map]
      apply congrArg List.sum
      apply List.map_congr_left
      intro r hr
      have hiw : i < r.weights.length := by
        rw [hwlen r hr]
        exact hib
      show ((r.num_samples : K) / (totalSamples (r0 :: rs) : K)) •
          ((List.zipWith (fun p b => (p.1, p.2 - b.2)) r.weights baseline).getD i ("", 0)).2 = _
      rw [zipWith_getD (fun p b => (p.1, p.2 - b.2)) ("", 0) ("", 0) ("", 0)
        r.weights baseline i hiw hib]
    rw [hsum]

/-- Witness for C1: the spec's scenario — 3 reports, sample counts
[10, 20, 30], scalar deltas [1, 2, 3] against baseline 0, aggregated
weight exactly 7/3. -/
theorem fedavg_formula_c1_witness :
    federated_averaging ℚ [("w", (0 : ℚ))]
      [⟨0, [("w", 1)], 10, 0⟩, ⟨1, [("w", 2)], 20, 0⟩, ⟨2, [("w", 3)], 30, 0⟩] =
      some [("w", (7 : ℚ)/3)] := by
  rw [fedavg_formula_c1 ℚ _ _ (by decide) (by decide) (by decide)]
  simp [specFedAvg, totalSamples, List.range_succ]
  norm_num

/-- C2: async aggregation is exactly the spec's staleness-discounted
blend.  For a non-empty batch with positive total sample count and
aligned tensor counts, `federated_async` returns, per tensor position,
`(1 − alpha_t) · baseline + alpha_t · new_weight`, with `new_weight` the
sample-weighted mean of the raw reported weights and
`alpha_t = alpha · f(staleness)` (`specFedAsync`, written from the spec's
words).  The second conjunct is the data-flow half: one iteration of the
async event loop consults the aggregation oracle only at the state's
current model (the model written by the previous iteration's
`load_weights`), never at any earlier snapshot — two oracles that agree on
the current model produce identical iterations. -/
theorem fedasync_formula_c2 :
    (∀ {T : Type} [AddCommGroup T] [Module ℝ T] (alpha fval : ℝ)
        (staleness_func : String) (baseline : Weights T)
        (reports : List (Report T)) (s : ℝ),
      reports ≠ [] →
      (∀ r ∈ reports, r.weights.length = baseline.length) →
      totalSamples reports ≠ 0 →
      staleness staleness_func s = some fval →
      federated_async alpha staleness_func baseline reports s =
        some (specFedAsync alpha fval baseline reports))
    ∧ (∀ {M ρ : Type} (agg1 agg2 : M → List ρ → ℚ → M) (accOf : M → List ρ → ℚ)
        (T_old T_async : ℚ) (st : AsyncSt M ρ),
      (∀ reps stal, agg1 st.model reps stal = agg2 st.model reps stal) →
      async_step agg1 accOf T_old T_async st = async_step agg2 accOf T_old T_async st) := by
  constructor
  · intro T i1 i2 alpha fval staleness_func baseline reports s hne hwlen htot hstale
    obtain ⟨r0, rs, rfl⟩ : ∃ a l, reports = a :: l := by
      cases reports with
      | nil => exact absurd rfl hne
      | cons a l => exact ⟨a, l, rfl⟩
    have hstep1 : federated_async alpha staleness_func baseline (r0 :: rs) s =
        (foldUpdates ℝ (totalSamples (r0 :: rs)) (r0.weights.map fun _ => (0 : T))
          ((r0.weights :: rs.map fun r => r.weights).zip
            (r0.num_samples :: rs.map fun r => r.num_samples))).bind
          (fun newW => (staleness staleness_func s).bind
            fun f => blendAligned (alpha * f) baseline newW) := by
      simp only [federated_async, extract_client_weights, List.map_cons]
    have hplen : ∀ p ∈ ((r0.weights :: rs.map fun r => r.weights).zip
        (r0.num_samples :: rs.map fun r => r.num_samples)),
        p.1.length = (r0.weights.map fun _ => (0 : T)).length := by
      intro p hp
      rw [List.length_map, hwlen r0 (List.mem_cons_self _ _)]
      have h1 := (List.of_mem_zip hp).1
      rcases List.mem_cons.mp h1 with h2 | h2
      · rw [h2]
        exact hwlen r0 (List.mem_cons_self _ _)
      · obtain ⟨r, hr, hru⟩ := List.mem_map.mp h2
        rw [← hru]
        exact hwlen r (List.mem_cons_of_mem _ hr)
    obtain ⟨final, hf, hflen, hfj⟩ :=
      foldUpdates_eq (K := ℝ) (totalSamples (r0 :: rs)) htot _ _ hplen
    rw [hstep1, hf, Option.some_bind, hstale, Option.some_bind]
    have hblen : baseline.length ≤ final.length := by
      rw [hflen, List.length_map, hwlen r0 (List.mem_cons_self _ _)]
    rw [blendAligned_eq (alpha * fval) baseline final hblen]
    refine congrArg some (List.ext_getElem ?_ ?_)
    · rw [List.length_zipWith, Nat.min_eq_left hblen]
      simp [specFedAsync]
    · intro i h1 h2
      have hib : i < baseline.length :=
        lt_of_lt_of_le h1 (by rw [List.length_zipWith]; exact min_le_left _ _)
      have hif : i < final.length :=
        lt_of_lt_of_le h1 (by rw [List.length_zipWith]; exact min_le_right _ _)
      rw [List.getElem_zipWith]
      have hspec : (specFedAsync alpha fval baseline (r0 :: rs))[i] =
          ((baseline.getD i ("", 0)).1,
            (1 - alpha * fval) • (baseline.getD i ("", 0)).2 + (alpha * fval) •
              ((r0 :: rs).map fun r =>
                ((r.num_samples : ℝ) / (totalSamples (r0 :: rs) : ℝ)) •
                  (r.weights.getD i ("", 0)).2).sum) := by
        simp only [specFedAsync, List.getElem_map, List.getElem_range]
      rw [hspec]
      rw [← List.getD_eq_getElem baseline ("", 0) hib, ← List.getD_eq_getElem final 0 hif]
      rw [hfj i, getD_map_zero, zero_add]
      have hsum : (((r0.weights :: rs.map fun r => r.weights).zip
          (r0.num_samples :: rs.map fun r => r.num_samples)).map fun p =>
            ((p.2 : ℝ) / (totalSamples (r0 :: rs) : ℝ)) • (p.1.getD i ("", 0)).2).sum =
          ((r0 :: rs).map fun r =>
            ((r.num_samples : ℝ) / (totalSamples (r0 :: rs) : ℝ)) •
              (r.weights.getD i ("", 0)).2).sum := by
        have hzm1 : (r0.weights :: rs.map fun r => r.weights) =
            (r0 :: rs).map fun r => r.weights := rfl
        have hzm2 : (r0.num_samples :: rs.map fun r => r.num_samples) =
            (r0 :: rs).map fun r => r.num_samples := rfl
        rw [hzm1, hzm2, List.zip_map', List.map_map]
        apply congrArg List.sum
        apply List.map_congr_left
        intro r hr
        rfl
      rw [hsum]
  · intro M ρ agg1 agg2 accOf T_old T_async st h
    cases hp : popMin st.queue with
    | none => simp [async_step, hp]
    | some x =>
      obtain ⟨⟨t, g⟩, rest⟩ := x
      simp only [async_step, hp]
      simp only [h]

/-- Witness for C2: one report with weight 4 against baseline 2,
`alpha = 1`, constant staleness, so the output is the reported weight
itself; plus a concrete instance of the data-flow conjunct. -/
theorem fedasync_formula_c2_witness :
    federated_async 1 "constant" [("w", (2 : ℝ))] [⟨0, [("w", 4)], 1, 0⟩] 0 =
      some [("w", (4 : ℝ))]
    ∧ async_step (M := ℚ) (ρ := Unit) (fun m _ _ => m + 1) (fun _ _ => 0) 0 10
        ⟨[(1, ⟨[⟨0, 1, fun _ => 1, 0, fun _ => ()⟩], 0, 1⟩)], 0, ⟨[], []⟩, []⟩ =
      async_step (fun m _ _ => if m = 0 then 1 else 5) (fun _ _ => 0) 0 10
        ⟨[(1, ⟨[⟨0, 1, fun _ => 1, 0, fun _ => ()⟩], 0, 1⟩)], 0, ⟨[], []⟩, []⟩ := by
  constructor
  · rw [fedasync_formula_c2.1 1 1 "constant" [("w", (2 : ℝ))] [⟨0, [("w", 4)], 1, 0⟩] 0
      (by simp) (by simp) (by decide) (by simp [staleness])]
    simp [specFedAsync, totalSamples, List.range_succ]
  · exact fedasync_formula_c2.2 _ _ _ 0 10 _ (fun reps stal => by norm_num)

/-- The group as re-enqueued at lines 342-345: `download_time` reset to the
current time (`T_cur = aggregate_time`), clients as left by the cycle's
`run` (delays freshly sampled), and `aggregate_time` recomputed by
`set_aggregate_time`. -/
def reenq {ρ : Type} (g : Group ρ) : Group ρ :=
  set_aggregate_time
    (set_download_time { g with clients := (g.clients.map client_run).map Prod.fst }
      g.aggregate_time)

lemma reenq_props {ρ : Type} (g : Group ρ) :
    (reenq g).download_time = g.aggregate_time
    ∧ (reenq g).clients = g.clients.map set_delay
    ∧ (reenq g).aggregate_time =
        g.aggregate_time + maxQ ((g.clients.map set_delay).map Client.delay) := by
  refine ⟨rfl, ?_, ?_⟩
  · simp only [reenq, set_aggregate_time, set_download_time, List.map_map]
    rfl
  · simp only [reenq, set_aggregate_time, set_download_time, List.map_map]
    rfl

/-- Non-negative delays for a client: the current delay and every future
sample are non-negative. -/
abbrev ClientNN {ρ : Type} (c : Client ρ) : Prop :=
  0 ≤ c.delay ∧ ∀ k : ℕ, 0 ≤ c.sampler k

/-- Every client of the group has non-negative delays. -/
abbrev GroupNN {ρ : Type} (g : Group ρ) : Prop :=
  ∀ c ∈ g.clients, ClientNN c

/-- Queue-entry invariant: the stored key is the group's `aggregate_time`,
which equals `download_time + max(delay)` over the group's clients as of
the last `set_aggregate_time`, and the delays are non-negative. -/
abbrev EntryOK {ρ : Type} (e : ℚ × Group ρ) : Prop :=
  e.1 = e.2.aggregate_time
  ∧ e.2.aggregate_time = e.2.download_time + maxQ (e.2.clients.map Client.delay)
  ∧ GroupNN e.2

/-- Event-loop state invariant: the time trace is sorted, every queue
entry satisfies `EntryOK`, every recorded time is below every pending
key, and every logged staleness is non-negative. -/
abbrev StOK {M ρ : Type} (st : AsyncSt M ρ) : Prop :=
  st.records.t.Sorted (· ≤ ·)
  ∧ (∀ e ∈ st.queue, EntryOK e)
  ∧ (∀ x ∈ st.records.t, ∀ e ∈ st.queue, x ≤ e.1)
  ∧ (∀ x ∈ st.stals, 0 ≤ x)

lemma clientNN_set_delay {ρ : Type} {c : Client ρ} (h : ClientNN c) :
    ClientNN (set_delay c) :=
  ⟨h.2 c.tick, h.2⟩

lemma popMin_cons_isSome {ρ : Type} (e : ℚ × Group ρ) (es : List (ℚ × Group ρ)) :
    (popMin (e :: es)).isSome := by
  cases hm : popMin es with
  | none => simp [popMin, hm]
  | some m =>
    obtain ⟨mm, rest⟩ := m
    by_cases he : e.1 ≤ mm.1 <;> simp [popMin, hm, he]

lemma popMin_spec {ρ : Type} :
    ∀ {l : List (ℚ × Group ρ)} {e : ℚ × Group ρ} {rest : List (ℚ × Group ρ)},
      popMin l = some (e, rest) →
      e ∈ l ∧ (∀ x ∈ rest, x ∈ l) ∧ (∀ x ∈ l, e.1 ≤ x.1) ∧ l.length = rest.length + 1 := by
  intro l
  induction l with
  | nil => intro e rest h; simp [popMin] at h
  | cons a as ih =>
    intro e rest h
    cases hm : popMin as with
    | none =>
      have has : as = [] := by
        cases as with
        | nil => rfl
        | cons b bs =>
          have hs := popMin_cons_isSome b bs
          rw [hm] at hs
          simp at hs
      subst has
      simp only [popMin, Option.some_inj, Prod.mk.injEq] at h
      obtain ⟨rfl, rfl⟩ := h
      refine ⟨List.mem_cons_self _ _, by simp, ?_, by simp⟩
      intro x hx
      rcases List.mem_cons.mp hx with rfl | hx2
      · exact le_refl _
      · cases hx2
    | some m =>
      obtain ⟨mm, mrest⟩ := m
      obtain ⟨hm1, hm2, hm3, hm4⟩ := ih hm
      simp only [popMin, hm] at h
      by_cases he : a.1 ≤ mm.1
      · rw [if_pos he] at h
        simp only [Option.some_inj, Prod.mk.injEq] at h
        obtain ⟨rfl, rfl⟩ := h
        refine ⟨List.mem_cons_self _ _, fun x hx => List.mem_cons_of_mem _ hx, ?_, by simp⟩
        intro x hx
        rcases List.mem_cons.mp hx with rfl | hx2
        · exact le_refl _
        · exact le_trans he (hm3 x hx2)
      · rw [if_neg he] at h
        simp only [Option.some_inj, Prod.mk.injEq] at h
        obtain ⟨rfl, rfl⟩ := h
        refine ⟨List.mem_cons_of_mem _ hm1, ?_, ?_, ?_⟩
        · intro x hx
          rcases List.mem_cons.mp hx with rfl | hx2
          · exact List.mem_cons_self _ _
          · exact List.mem_cons_of_mem _ (hm2 x hx2)
        · intro x hx
          rcases List.mem_cons.mp hx with rfl | hx2
          · exact (not_le.mp he).le
          · exact hm3 x hx2
        · simp only [List.length_cons, hm4]

lemma le_foldl_max (a : ℚ) : ∀ (xs : List ℚ), a ≤ xs.foldl max a := by
  intro xs
  induction xs generalizing a with
  | nil => exact le_refl a
  | cons x xs ih => exact le_trans (le_max_left a x) (ih (max a x))

lemma mem_le_foldl_max : ∀ (xs : List ℚ) (a x : ℚ), x ∈ xs → x ≤ xs.foldl max a := by
  intro xs
  induction xs with
  | nil => intro a x hx; cases hx
  | cons y ys ih =>
    intro a x hx
    rcases List.mem_cons.mp hx with rfl | hx2
    · exact le_trans (le_max_right a x) (le_foldl_max _ ys)
    · exact ih (max a y) x hx2

lemma le_maxQ_of_mem {x : ℚ} : ∀ {l : List ℚ}, x ∈ l → x ≤ maxQ l := by
  intro l hx
  cases l with
  | nil => cases hx
  | cons y ys =>
    rcases List.mem_cons.mp hx with rfl | hx2
    · exact le_foldl_max x ys
    · exact mem_le_foldl_max ys y x hx2

lemma maxQ_nonneg {l : List ℚ} (h : ∀ x ∈ l, 0 ≤ x) : 0 ≤ maxQ l := by
  cases l with
  | nil => exact le_refl 0
  | cons y ys =>
    exact le_trans (h y (List.mem_cons_self _ _)) (le_maxQ_of_mem (List.mem_cons_self _ _))

lemma sorted_append_singleton {l : List ℚ} {a : ℚ} (hl : l.Sorted (· ≤ ·))
    (ha : ∀ x ∈ l, x ≤ a) : (l ++ [a]).Sorted (· ≤ ·) := by
  refine List.pairwise_append.mpr ⟨hl, List.pairwise_singleton _ _, ?_⟩
  intro x hx b hb
  rw [List.mem_singleton.mp hb]
  exact ha x hx

lemma getLastD_mem_or {α : Type} : ∀ (l : List α) (d : α), l.getLastD d = d ∨ l.getLastD d ∈ l := by
  intro l
  induction l with
  | nil => intro d; exact Or.inl rfl
  | cons a as ih =>
    intro d
    rw [List.getLastD_cons]
    rcases ih a with h | h
    · refine Or.inr ?_
      rw [h]
      exact List.mem_cons_self _ _
    · exact Or.inr (List.mem_cons_of_mem _ h)

lemma sorted_le_getLastD :
    ∀ {l : List ℚ}, l.Sorted (· ≤ ·) → ∀ x ∈ l, ∀ d : ℚ, x ≤ l.getLastD d := by
  intro l
  induction l with
  | nil => intro _ x hx; cases hx
  | cons a as ih =>
    intro hl x hx d
    rw [List.getLastD_cons]
    obtain ⟨hafirst, hsorted⟩ := List.pairwise_cons.mp hl
    rcases List.mem_cons.mp hx with rfl | hx2
    · rcases getLastD_mem_or as x with h | h
      · rw [h]
      · exact hafirst _ h
    · exact ih hsorted x hx2 a

lemma async_step_of_pop {M ρ : Type} (agg : M → List ρ → ℚ → M) (accOf : M → List ρ → ℚ)
    (T_old T_async : ℚ) (st : AsyncSt M ρ) (t : ℚ) (g : Group ρ)
    (rest : List (ℚ × Group ρ)) (hp : popMin st.queue = some ((t, g), rest)) :
    (async_step agg accOf T_old T_async st).records.t = st.records.t ++ [g.aggregate_time]
    ∧ (async_step agg accOf T_old T_async st).stals =
        st.stals ++ [g.aggregate_time - g.download_time]
    ∧ (g.aggregate_time - T_old ≤ T_async →
        (async_step agg accOf T_old T_async st).queue =
          rest ++ [((reenq g).aggregate_time, reenq g)])
    ∧ (¬ g.aggregate_time - T_old ≤ T_async →
        (async_step agg accOf T_old T_async st).queue = rest) := by
  by_cases hin : g.aggregate_time - T_old ≤ T_async
  · refine ⟨?_, ?_, fun _ => ?_, fun hout => absurd hin hout⟩ <;>
      simp [async_step, hp, hin, append_acc_record, reenq, set_download_time,
        set_aggregate_time]
  · refine ⟨?_, ?_, fun hin2 => absurd hin2 hin, fun _ => ?_⟩ <;>
      simp [async_step, hp, hin, append_acc_record]

lemma async_step_StOK {M ρ : Type} (agg : M → List ρ → ℚ → M) (accOf : M → List ρ → ℚ)
    (T_old T_async : ℚ) (st : AsyncSt M ρ) (h : StOK st) :
    StOK (async_step agg accOf T_old T_async st)
    ∧ ∃ l, (async_step agg accOf T_old T_async st).records.t = st.records.t ++ l := by
  cases hp : popMin st.queue with
  | none =>
    constructor
    · simpa [async_step, hp] using h
    · exact ⟨[], by simp [async_step, hp]⟩
  | some x =>
    obtain ⟨⟨t, g⟩, rest⟩ := x
    obtain ⟨hrecsorted, hqok, hbound, hstal⟩ := h
    obtain ⟨hmem, hsub, hmin, hlen⟩ := popMin_spec hp
    obtain ⟨hkey, hagg, hNN⟩ := hqok _ hmem
    have hdel : ∀ x ∈ g.clients.map Client.delay, 0 ≤ x := by
      intro x hx
      obtain ⟨c, hc, rfl⟩ := List.mem_map.mp hx
      exact (hNN c hc).1
    have hstal_nn : 0 ≤ g.aggregate_time - g.download_time := by
      rw [hagg, add_sub_cancel_left]
      exact maxQ_nonneg hdel
    have hrec_le : ∀ x ∈ st.records.t, x ≤ g.aggregate_time := by
      intro x hx
      have hb := hbound x hx _ hmem
      rwa [hkey] at hb
    obtain ⟨ht_eq, hs_eq, hqin, hqout⟩ :=
      async_step_of_pop agg accOf T_old T_async st t g rest hp
    obtain ⟨hd, hc, ha⟩ := reenq_props g
    have hfresh : 0 ≤ maxQ ((g.clients.map set_delay).map Client.delay) := by
      apply maxQ_nonneg
      intro y hy
      simp only [List.map_map, List.mem_map] at hy
      obtain ⟨c, hcmem, rfl⟩ := hy
      exact (clientNN_set_delay (hNN c hcmem)).1
    have hstals_ok : ∀ x ∈ (async_step agg accOf T_old T_async st).stals, 0 ≤ x := by
      rw [hs_eq]
      intro x hx
      rcases List.mem_append.mp hx with hx2 | hx2
      · exact hstal x hx2
      · rw [List.mem_singleton.mp hx2]
        exact hstal_nn
    have hsorted2 : (async_step agg accOf T_old T_async st).records.t.Sorted (· ≤ ·) := by
      rw [ht_eq]
      exact sorted_append_singleton hrecsorted hrec_le
    by_cases hin : g.aggregate_time - T_old ≤ T_async
    · have hq := hqin hin
      refine ⟨⟨hsorted2, ?_, ?_, hstals_ok⟩, ⟨[g.aggregate_time], ht_eq⟩⟩
      · rw [hq]
        intro e he
        rcases List.mem_append.mp he with he2 | he2
        · exact hqok e (hsub e he2)
        · rw [List.mem_singleton.mp he2]
          refine ⟨rfl, rfl, ?_⟩
          intro c hcmem
          rw [hc] at hcmem
          obtain ⟨c0, hc0, rfl⟩ := List.mem_map.mp hcmem
          exact clientNN_set_delay (hNN c0 hc0)
      · rw [ht_eq, hq]
        intro x hx e he
        have hx2 : x ≤ g.aggregate_time := by
          rcases List.mem_append.mp hx with hx3 | hx3
          · exact hrec_le x hx3
          · rw [List.mem_singleton.mp hx3]
        rcases List.mem_append.mp he with he2 | he2
        · have hte := hmin e (hsub e he2)
          rw [hkey] at hte
          exact le_trans hx2 hte
        · rw [List.mem_singleton.mp he2]
          have hle : g.aggregate_time ≤ (reenq g).aggregate_time := by
            rw [ha]
            linarith
          exact le_trans hx2 hle
    · have hq := hqout hin
      refine ⟨⟨hsorted2, ?_, ?_, hstals_ok⟩, ⟨[g.aggregate_time], ht_eq⟩⟩
      · rw [hq]
        intro e he
        exact hqok e (hsub e he)
      · rw [ht_eq, hq]
        intro x hx e he
        have hte := hmin e (hsub e he)
        rw [hkey] at hte
        rcases List.mem_append.mp hx with hx2 | hx2
        · exact le_trans (hrec_le x hx2) hte
        · rw [List.mem_singleton.mp hx2]
          exact hte

lemma async_loop_StOK {M ρ : Type} (agg : M → List ρ → ℚ → M) (accOf : M → List ρ → ℚ)
    (T_old T_async : ℚ) :
    ∀ (fuel : ℕ) (st : AsyncSt M ρ), StOK st →
      StOK (async_loop agg accOf T_old T_async fuel st)
      ∧ ∃ l, (async_loop agg accOf T_old T_async fuel st).records.t = st.records.t ++ l := by
  intro fuel
  induction fuel with
  | zero =>
    intro st h
    exact ⟨h, ⟨[], by simp [async_loop]⟩⟩
  | succ n ih =>
    intro st h
    cases hq : st.queue.isEmpty with
    | true =>
      constructor
      · simpa [async_loop, hq] using h
      · exact ⟨[], by simp [async_loop, hq]⟩
    | false =>
      obtain ⟨h1, l1, hl1⟩ := async_step_StOK agg accOf T_old T_async st h
      obtain ⟨h2, l2, hl2⟩ := ih (async_step agg accOf T_old T_async st) h1
      constructor
      · simpa [async_loop, hq] using h2
      · refine ⟨l1 ++ l2, ?_⟩
        have hred : async_loop agg accOf T_old T_async (n + 1) st =
            async_loop agg accOf T_old T_async n (async_step agg accOf T_old T_async st) := by
          simp [async_loop, hq]
        rw [hred, hl2, hl1, List.append_assoc]

lemma async_loop_count {M ρ : Type} (agg : M → List ρ → ℚ → M) (accOf : M → List ρ → ℚ)
    (T_old T_async : ℚ) :
    ∀ (fuel : ℕ) (st : AsyncSt M ρ),
      (async_loop agg accOf T_old T_async fuel st).queue = [] →
      st.records.t.length + st.queue.length ≤
        (async_loop agg accOf T_old T_async fuel st).records.t.length := by
  intro fuel
  induction fuel with
  | zero =>
    intro st h
    simp only [async_loop] at h ⊢
    simp [h]
  | succ n ih =>
    intro st h
    cases hq : st.queue.isEmpty with
    | true =>
      have hq2 : st.queue = [] := by
        cases hql : st.queue with
        | nil => rfl
        | cons e es => rw [hql] at hq; simp at hq
      simp [async_loop, hq, hq2]
    | false =>
      have hred : async_loop agg accOf T_old T_async (n + 1) st =
          async_loop agg accOf T_old T_async n (async_step agg accOf T_old T_async st) := by
        simp [async_loop, hq]
      rw [hred] at h ⊢
      have hstep := ih (async_step agg accOf T_old T_async st) h
      cases hp : popMin st.queue with
      | none =>
        have hq3 : st.queue = [] := by
          cases hql : st.queue with
          | nil => rfl
          | cons e es =>
            have hs := popMin_cons_isSome e es
            rw [← hql, hp] at hs
            simp at hs
        rw [hq3] at hq
        simp at hq
      | some x =>
        obtain ⟨⟨t, g⟩, rest⟩ := x
        obtain ⟨ht_eq, hs_eq, hqin, hqout⟩ :=
          async_step_of_pop agg accOf T_old T_async st t g rest hp
        obtain ⟨-, -, -, hlen⟩ := popMin_spec hp
        have e1 : (async_step agg accOf T_old T_async st).records.t.length =
            st.records.t.length + 1 := by
          rw [ht_eq]
          simp
        by_cases hin : g.aggregate_time - T_old ≤ T_async
        · have e2 : (async_step agg accOf T_old T_async st).queue.length = rest.length + 1 := by
            rw [hqin hin]
            simp
          omega
        · have e2 : (async_step agg accOf T_old T_async st).queue.length = rest.length := by
            rw [hqout hin]
          omega

/-- C3: the async re-enqueue policy.  Every popped group runs one full
cycle unconditionally (its `aggregate_time` is appended to the records
even when it exceeds `T_old + T_async` — the window is checked only at
re-enqueue); when `T_cur − T_old ≤ T_async` the group is pushed back with
`download_time` reset to the current time, per-client delays freshly
sampled by the cycle's run, and `aggregate_time` recomputed from them;
otherwise it retires.  The loop-level conjunct: when the loop drains its
queue, at least one cycle per initially queued group was recorded. -/
theorem async_reenqueue_c3 :
    (∀ {M ρ : Type} (agg : M → List ρ → ℚ → M) (accOf : M → List ρ → ℚ)
        (T_old T_async : ℚ) (st : AsyncSt M ρ) (t : ℚ) (g : Group ρ)
        (rest : List (ℚ × Group ρ)),
      popMin st.queue = some ((t, g), rest) →
      (async_step agg accOf T_old T_async st).records.t = st.records.t ++ [g.aggregate_time]
      ∧ (g.aggregate_time - T_old ≤ T_async →
          (async_step agg accOf T_old T_async st).queue =
            rest ++ [((reenq g).aggregate_time, reenq g)]
          ∧ (reenq g).download_time = g.aggregate_time
          ∧ (reenq g).clients = g.clients.map set_delay
          ∧ (reenq g).aggregate_time =
              (reenq g).download_time + maxQ ((reenq g).clients.map Client.delay))
      ∧ (¬ g.aggregate_time - T_old ≤ T_async →
          (async_step agg accOf T_old T_async st).queue = rest))
    ∧ (∀ {M ρ : Type} (agg : M → List ρ → ℚ → M) (accOf : M → List ρ → ℚ)
        (T_old T_async : ℚ) (fuel : ℕ) (st : AsyncSt M ρ),
      (async_loop agg accOf T_old T_async fuel st).queue = [] →
      st.records.t.length + st.queue.length ≤
        (async_loop agg accOf T_old T_async fuel st).records.t.length) := by
  constructor
  · intro M ρ agg accOf T_old T_async st t g rest hp
    obtain ⟨ht_eq, hs_eq, hqin, hqout⟩ :=
      async_step_of_pop agg accOf T_old T_async st t g rest hp
    obtain ⟨hd, hc, ha⟩ := reenq_props g
    exact ⟨ht_eq, fun hin => ⟨hqin hin, hd, hc, rfl⟩, hqout⟩
  · intro M ρ agg accOf T_old T_async fuel st
    exact async_loop_count agg accOf T_old T_async fuel st

/-- Witness for C3 on a one-group state: the cycle is recorded and the
re-enqueued group's download time is the old aggregate time. -/
theorem async_reenqueue_c3_witness :
    (async_step (M := ℚ) (ρ := Unit) (fun m _ _ => m) (fun _ _ => 0) 0 10
        ⟨[(1, ⟨[⟨0, 1, fun _ => 2, 0, fun _ => ()⟩], 0, 1⟩)], 0, ⟨[], []⟩, []⟩).records.t =
      [(1 : ℚ)]
    ∧ (reenq (⟨[⟨0, 1, fun _ => 2, 0, fun _ => ()⟩], 0, 1⟩ : Group Unit)).download_time = 1 := by
  have h := async_reenqueue_c3.1 (M := ℚ) (ρ := Unit) (fun m _ _ => m) (fun _ _ => 0) 0 10
    ⟨[(1, ⟨[⟨0, 1, fun _ => 2, 0, fun _ => ()⟩], 0, 1⟩)], 0, ⟨[], []⟩, []⟩ 1
    ⟨[⟨0, 1, fun _ => 2, 0, fun _ => ()⟩], 0, 1⟩ [] rfl
  constructor
  · rw [h.1]
    simp
  · exact (h.2.1 (by norm_num)).2.1

/-- C10: at every iteration the staleness value passed to aggregation is
`aggregate_time − download_time` of the popped group, which under the
queue-entry invariant equals the maximum client delay as of the last
`set_aggregate_time`, hence non-negative when delays are non-negative;
over the whole loop the staleness log stays non-negative. -/
theorem staleness_nonneg_c10 :
    (∀ {M ρ : Type} (agg : M → List ρ → ℚ → M) (accOf : M → List ρ → ℚ)
        (T_old T_async : ℚ) (st : AsyncSt M ρ) (t : ℚ) (g : Group ρ)
        (rest : List (ℚ × Group ρ)),
      popMin st.queue = some ((t, g), rest) →
      (async_step agg accOf T_old T_async st).stals =
        st.stals ++ [g.aggregate_time - g.download_time]
      ∧ (EntryOK (t, g) →
          g.aggregate_time - g.download_time = maxQ (g.clients.map Client.delay)
          ∧ 0 ≤ g.aggregate_time - g.download_time))
    ∧ (∀ {M ρ : Type} (agg : M → List ρ → ℚ → M) (accOf : M → List ρ → ℚ)
        (T_old T_async : ℚ) (fuel : ℕ) (st : AsyncSt M ρ), StOK st →
      ∀ x ∈ (async_loop agg accOf T_old T_async fuel st).stals, 0 ≤ x) := by
  constructor
  · intro M ρ agg accOf T_old T_async st t g rest hp
    obtain ⟨ht_eq, hs_eq, -, -⟩ := async_step_of_pop agg accOf T_old T_async st t g rest hp
    refine ⟨hs_eq, ?_⟩
    rintro ⟨hkey, hagg, hNN⟩
    have hdel : ∀ x ∈ g.clients.map Client.delay, 0 ≤ x := by
      intro x hx
      obtain ⟨c, hc, rfl⟩ := List.mem_map.mp hx
      exact (hNN c hc).1
    constructor
    · rw [hagg, add_sub_cancel_left]
    · rw [hagg, add_sub_cancel_left]
      exact maxQ_nonneg hdel
  · intro M ρ agg accOf T_old T_async fuel st h
    exact (async_loop_StOK agg accOf T_old T_async fuel st h).1.2.2.2

/-- Witness for C10 on a one-group state with delay 1 and download time
0: the logged staleness is 1 = max delay, and non-negative. -/
theorem staleness_nonneg_c10_witness :
    (async_step (M := ℚ) (ρ := Unit) (fun m _ _ => m) (fun _ _ => 0) 0 10
        ⟨[(1, ⟨[⟨0, 1, fun _ => 2, 0, fun _ => ()⟩], 0, 1⟩)], 0, ⟨[], []⟩, []⟩).stals =
      [] ++ [(1 : ℚ) - 0]
    ∧ (1 : ℚ) - 0 =
        maxQ (List.map Client.delay [(⟨0, 1, fun _ => 2, 0, fun _ => ()⟩ : Client Unit)])
    ∧ (0 : ℚ) ≤ 1 - 0 := by
  have h := staleness_nonneg_c10.1 (M := ℚ) (ρ := Unit) (fun m _ _ => m) (fun _ _ => 0) 0 10
    ⟨[(1, ⟨[⟨0, 1, fun _ => 2, 0, fun _ => ()⟩], 0, 1⟩)], 0, ⟨[], []⟩, []⟩ 1
    ⟨[⟨0, 1, fun _ => 2, 0, fun _ => ()⟩], 0, 1⟩ [] rfl
  have h2 := h.2 ⟨rfl, by norm_num [maxQ], fun c hc => by
    simp only [List.mem_singleton] at hc
    subst hc
    exact ⟨by norm_num, fun k => by norm_num⟩⟩
  exact ⟨h.1, h2.1, h2.2⟩

lemma sync_round_ok {M ρ : Type} (aggS : M → List ρ → M) (accOf : M → List ρ → ℚ)
    (groups : List (Group ρ)) (T_old : ℚ) (model : M) (records : Record)
    (hNN : ∀ g ∈ groups, GroupNN g) (hsort : records.t.Sorted (· ≤ ·))
    (hbound : ∀ x ∈ records.t, x ≤ T_old) :
    (sync_round aggS accOf groups T_old model records).records.t.Sorted (· ≤ ·)
    ∧ (∀ x ∈ (sync_round aggS accOf groups T_old model records).records.t,
        x ≤ (sync_round aggS accOf groups T_old model records).T_new)
    ∧ (sync_round aggS accOf groups T_old model records).records.t =
        records.t ++ [(sync_round aggS accOf groups T_old model records).T_new] := by
  have hd : 0 ≤ maxQ ((((groups.map (initGroup T_old)).map Group.clients).flatten).map
      Client.delay) := by
    apply maxQ_nonneg
    intro x hx
    obtain ⟨c, hc, rfl⟩ := List.mem_map.mp hx
    obtain ⟨cl, hcl, hc2⟩ := List.mem_flatten.mp hc
    obtain ⟨g2, hg2, rfl⟩ := List.mem_map.mp hcl
    obtain ⟨g0, hg0, rfl⟩ := List.mem_map.mp hg2
    have hc3 : c ∈ g0.clients.map set_delay := hc2
    obtain ⟨c0, hc0, rfl⟩ := List.mem_map.mp hc3
    exact (clientNN_set_delay (hNN g0 hg0 c0 hc0)).1
  have hTge : T_old ≤ (sync_round aggS accOf groups T_old model records).T_new := by
    show T_old ≤ T_old + maxQ ((((groups.map (initGroup T_old)).map Group.clients).flatten).map
      Client.delay)
    linarith
  have ht_eq : (sync_round aggS accOf groups T_old model records).records.t =
      records.t ++ [(sync_round aggS accOf groups T_old model records).T_new] := rfl
  refine ⟨?_, ?_, ht_eq⟩
  · rw [ht_eq]
    exact sorted_append_singleton hsort fun x hx => le_trans (hbound x hx) hTge
  · rw [ht_eq]
    intro x hx
    rcases List.mem_append.mp hx with hx2 | hx2
    · exact le_trans (hbound x hx2) hTge
    · rw [List.mem_singleton.mp hx2]

lemma initGroup_ok {ρ : Type} (T_old : ℚ) (g : Group ρ) (h : GroupNN g) :
    EntryOK ((initGroup T_old g).aggregate_time, initGroup T_old g)
    ∧ T_old ≤ (initGroup T_old g).aggregate_time := by
  have hd : 0 ≤ maxQ ((g.clients.map set_delay).map Client.delay) := by
    apply maxQ_nonneg
    intro x hx
    simp only [List.map_map, List.mem_map] at hx
    obtain ⟨c0, hc0, rfl⟩ := hx
    exact (clientNN_set_delay (h c0 hc0)).1
  refine ⟨⟨rfl, rfl, ?_⟩, ?_⟩
  · intro c hc
    have hc2 : c ∈ g.clients.map set_delay := hc
    obtain ⟨c0, hc0, rfl⟩ := List.mem_map.mp hc2
    exact clientNN_set_delay (h c0 hc0)
  · show T_old ≤ T_old + maxQ ((g.clients.map set_delay).map Client.delay)
    linarith

lemma async_round_ok {M ρ : Type} (aggA : M → List ρ → ℚ → M) (accOf : M → List ρ → ℚ)
    (groups : List (Group ρ)) (T_old T_async : ℚ) (fuel : ℕ) (model : M) (records : Record)
    (hNN : ∀ g ∈ groups, GroupNN g) (hsort : records.t.Sorted (· ≤ ·))
    (hbound : ∀ x ∈ records.t, x ≤ T_old) :
    (async_round aggA accOf groups T_old T_async fuel model records).records.t.Sorted (· ≤ ·)
    ∧ (∀ x ∈ (async_round aggA accOf groups T_old T_async fuel model records).records.t,
        x ≤ (async_round aggA accOf groups T_old T_async fuel model records).T_new)
    ∧ ∃ l, (async_round aggA accOf groups T_old T_async fuel model records).records.t =
        records.t ++ l := by
  have hst0 : StOK (⟨((groups.map (initGroup T_old)).map fun g => (g.aggregate_time, g)),
      model, records, []⟩ : AsyncSt M ρ) := by
    refine ⟨hsort, ?_, ?_, by simp⟩
    · intro e he
      simp only [List.mem_map] at he
      obtain ⟨g2, ⟨g0, hg0, rfl⟩, rfl⟩ := he
      exact (initGroup_ok T_old g0 (hNN g0 hg0)).1
    · intro x hx e he
      simp only [List.mem_map] at he
      obtain ⟨g2, ⟨g0, hg0, rfl⟩, rfl⟩ := he
      exact le_trans (hbound x hx) (initGroup_ok T_old g0 (hNN g0 hg0)).2
  obtain ⟨hstF, lF, hlF⟩ := async_loop_StOK aggA accOf T_old T_async fuel _ hst0
  refine ⟨hstF.1, ?_, ⟨lF, hlF⟩⟩
  intro x hx
  exact sorted_le_getLastD hstF.1 x hx 0

/-- C5: record-time monotonicity.  For every run of the round loop (sync
or async mode) started from a sorted record bounded by the starting time,
with non-negative client delays throughout, the run succeeds and its final
record's time trace is sorted (non-decreasing), bounded by the returned
time, and extends the starting trace.  The second conjunct is the async
half on its own: from any invariant-satisfying loop state, the event
loop's popped aggregate times (exactly the appended record entries) stay
non-decreasing. -/
theorem record_monotone_c5 :
    (∀ {M ρ : Type} (sync_type : String) (groupsOf : ℕ → List (Group ρ))
        (aggS : M → List ρ → M) (aggA : M → List ρ → ℚ → M) (accOf : M → List ρ → ℚ)
        (T_async : ℚ) (fuel : ℕ) (target : Option ℚ) (round n : ℕ) (T_old : ℚ)
        (model : M) (records : Record),
      sync_type = "sync" ∨ sync_type = "async" →
      (∀ r : ℕ, ∀ g ∈ groupsOf r, GroupNN g) →
      records.t.Sorted (· ≤ ·) →
      (∀ x ∈ records.t, x ≤ T_old) →
      ∃ out : M × Record × ℚ,
        runRounds sync_type groupsOf aggS aggA accOf T_async fuel target
          round n T_old model records = some out
        ∧ out.2.1.t.Sorted (· ≤ ·)
        ∧ (∀ x ∈ out.2.1.t, x ≤ out.2.2)
        ∧ ∃ l, out.2.1.t = records.t ++ l)
    ∧ (∀ {M ρ : Type} (agg : M → List ρ → ℚ → M) (accOf : M → List ρ → ℚ)
        (T_old T_async : ℚ) (fuel : ℕ) (st : AsyncSt M ρ), StOK st →
      (async_loop agg accOf T_old T_async fuel st).records.t.Sorted (· ≤ ·)
      ∧ ∃ l, (async_loop agg accOf T_old T_async fuel st).records.t =
          st.records.t ++ l) := by
  constructor
  · intro M ρ sync_type groupsOf aggS aggA accOf T_async fuel target round n
    induction n generalizing round with
    | zero =>
      intro T_old model records hmode hNN hsort hbound
      exact ⟨(model, records, T_old), by simp [runRounds], hsort, hbound, ⟨[], by simp⟩⟩
    | succ n ih =>
      intro T_old model records hmode hNN hsort hbound
      rcases hmode with hs | ha
      · subst hs
        obtain ⟨hS, hB, hT⟩ :=
          sync_round_ok aggS accOf (groupsOf round) T_old model records (hNN round) hsort hbound
        by_cases htgt : targetHit target
          (sync_round aggS accOf (groupsOf round) T_old model records).accuracy = true
        · refine ⟨((sync_round aggS accOf (groupsOf round) T_old model records).model,
            (sync_round aggS accOf (groupsOf round) T_old model records).records,
            (sync_round aggS accOf (groupsOf round) T_old model records).T_new), ?_, hS, hB,
            ⟨[(sync_round aggS accOf (groupsOf round) T_old model records).T_new], hT⟩⟩
          simp [runRounds, htgt]
        · obtain ⟨out, hrun, ho1, ho2, l, hl⟩ := ih (round + 1)
            (sync_round aggS accOf (groupsOf round) T_old model records).T_new
            (sync_round aggS accOf (groupsOf round) T_old model records).model
            (sync_round aggS accOf (groupsOf round) T_old model records).records
            (Or.inl rfl) hNN hS hB
          refine ⟨out, ?_, ho1, ho2,
            ⟨[(sync_round aggS accOf (groupsOf round) T_old model records).T_new] ++ l, ?_⟩⟩
          · simp only [runRounds, if_pos rfl]
            simp [htgt]
            exact hrun
          · rw [hl, hT, List.append_assoc]
      · subst ha
        obtain ⟨hS, hB, l0, hT⟩ :=
          async_round_ok aggA accOf (groupsOf round) T_old T_async fuel model records
            (hNN round) hsort hbound
        by_cases htgt : targetHit target
          (async_round aggA accOf (groupsOf round) T_old T_async fuel model records).accuracy = true
        · refine ⟨((async_round aggA accOf (groupsOf round) T_old T_async fuel model records).model,
            (async_round aggA accOf (groupsOf round) T_old T_async fuel model records).records,
            (async_round aggA accOf (groupsOf round) T_old T_async fuel model records).T_new),
            ?_, hS, hB, ⟨l0, hT⟩⟩
          simp [runRounds, htgt]
        · obtain ⟨out, hrun, ho1, ho2, l, hl⟩ := ih (round + 1)
            (async_round aggA accOf (groupsOf round) T_old T_async fuel model records).T_new
            (async_round aggA accOf (groupsOf round) T_old T_async fuel model records).model
            (async_round aggA accOf (groupsOf round) T_old T_async fuel model records).records
            (Or.inr rfl) hNN hS hB
          refine ⟨out, ?_, ho1, ho2, ⟨l0 ++ l, ?_⟩⟩
          · simp [runRounds, htgt]
            exact hrun
          · rw [hl, hT, List.append_assoc]
  · intro M ρ agg accOf T_old T_async fuel st h
    obtain ⟨hok, l, hl⟩ := async_loop_StOK agg accOf T_old T_async fuel st h
    exact ⟨hok.1, ⟨l, hl⟩⟩

/-- Witness for C5: a concrete 2-round async run with one unit-delay
client per round. -/
theorem record_monotone_c5_witness :
    ∃ out : ℚ × Record × ℚ,
      runRounds "async" (fun _ => [⟨[⟨0, 1, fun _ => 1, 0, fun _ => ()⟩], 0, 0⟩])
        (fun (m : ℚ) _ => m) (fun m _ _ => m) (fun _ _ => 0) 10 5 none 1 2 0 0 ⟨[], []⟩ =
        some out
      ∧ out.2.1.t.Sorted (· ≤ ·)
      ∧ (∀ x ∈ out.2.1.t, x ≤ out.2.2)
      ∧ ∃ l, out.2.1.t = (⟨[], []⟩ : Record).t ++ l :=
  record_monotone_c5.1 "async" (fun _ => [⟨[⟨0, 1, fun _ => 1, 0, fun _ => ()⟩], 0, 0⟩])
    (fun (m : ℚ) _ => m) (fun m _ _ => m) (fun _ _ => 0) 10 5 none 1 2 0 0 ⟨[], []⟩
    (Or.inr rfl)
    (by
      intro r g hg c hc
      simp only [List.mem_singleton] at hg
      subst hg
      simp only [List.mem_singleton] at hc
      subst hc
      exact ⟨by norm_num, fun k => by norm_num⟩)
    List.sorted_nil
    (by simp)

end flsim
